import Mathlib

/-!
Verification development for the JavaScript compiler pass of
django-template-preprocessor (`template_preprocessor/core/js_processor.py`).

The parse-tree node model, the whitespace compressor, the heuristic
statement validator, the gettext literal-call rewriter and the scope
resolver / variable renamer are translated directly from the Python
source.  The generic tokenizer engine (`lexer_engine.tokenize`) is not
part of the source tree; the lexer below therefore interprets the
`__JS_STATES` state table from the source with an engine modelled from
the specification (see the doc comments marked accordingly).

Python in-place mutation of nodes is modelled with explicit state:
variable nodes carry a numeric identity, and the resolver's `link`
references, assigned replacement names and per-scope symbol tables are
kept in association lists indexed by those identities (the Python
symbol tables are per-scope dictionaries; insertion order is used for
iteration order here).
-/

/-! ## Character and string helpers (Python `str.strip`, `\s`, `replace`) -/

/-- Python regex `\s` character class (ASCII). -/
def isPyWs (c : Char) : Bool :=
  c = ' ' || c = '\t' || c = '\n' || c = '\r' || c = '\x0b' || c = '\x0c'

/-- Drop leading whitespace characters, as the left half of Python `strip()`. -/
def ltrimChars (l : List Char) : List Char :=
  l.dropWhile isPyWs

/-- Drop trailing whitespace characters, as the right half of Python `strip()`. -/
def rtrimChars : List Char → List Char
  | [] => []
  | c :: cs =>
      match rtrimChars cs with
      | [] => if isPyWs c then [] else [c]
      | r => c :: r

/-- Python `str.strip()` on the character list. -/
def trimChars (l : List Char) : List Char :=
  ltrimChars (rtrimChars l)

/-- Python `str.strip()`. -/
def pstrip (s : String) : String :=
  String.mk (trimChars s.data)

/-- One replacement step for `text.replace(u'"', ur'\"')` (escape each
double quote with a backslash). -/
def escQuoteChars : List Char → List Char
  | [] => []
  | c :: cs => if c = '"' then '\\' :: '"' :: escQuoteChars cs else c :: escQuoteChars cs

/-- Python `text.replace(u'"', ur'\"')` as used by
`JavascriptDoubleQuotedString.output` and `_process_gettext`. -/
def escQuotes (s : String) : String :=
  String.mk (escQuoteChars s.data)

/-- One replacement step for `text.replace(u"'", ur"\'")`. -/
def escSingleChars : List Char → List Char
  | [] => []
  | c :: cs => if c = '\'' then '\\' :: '\'' :: escSingleChars cs else c :: escSingleChars cs

/-- Python `text.replace(u"'", ur"\'")` as used by
`JavascriptSingleQuotedString.output`. -/
def escSingle (s : String) : String :=
  String.mk (escSingleChars s.data)

/-! ## The node model

One constructor per entry of `__JS_EXTENSION_MAPPINGS` plus the opaque
embedded Django tag and the `required-whitespace` token inserted by
`fix_whitespace_bug`.  `scope` nodes carry a numeric identity (`sid`)
standing for the Python object identity, under which the resolver files
the scope's symbol table; `jvar` nodes carry a numeric identity (`vid`)
standing for the `JavascriptVariable` object identity used by links and
assigned names.  String-literal content is stored as the raw recorded
text (quote escapes already normalized by the lexer, like the Python
children list). -/

inductive JSNode where
  | scope (sid : Nat) (children : List JSNode)
  | parens (children : List JSNode)
  | brackets (children : List JSNode)
  | ws (text : String)
  | oper (text : String)
  | kw (text : String)
  | jvar (vid : Nat) (text : String)
  | dqstr (text : String)
  | sqstr (text : String)
  | regex (text : String)
  | num (text : String)
  | django
  | reqws (text : String)

/-- The `JavascriptOperator.operator`: the node text, stripped. -/
def operatorText (t : String) : String := pstrip t

/-! ## Whitespace compressor (`_compress_javascript_whitespace`)

The Python function rewrites every Whitespace token to a single space
and every Operator token to its stripped text (keeping one space on
each side of `in` / `instanceof`), then — in *every* invocation, the
`root_node` argument is never read — empties a leading and/or trailing
Whitespace child of the current node. -/

/-- Operator content rewrite of the compressor. -/
def opFix (t : String) : String :=
  if operatorText t = "in" then " in "
  else if operatorText t = "instanceof" then " instanceof "
  else operatorText t

/-- The `children = [ u'' ]` assignment applied to a boundary child when
it is a Whitespace token. -/
def emptyIfWs : JSNode → JSNode
  | .ws _ => .ws ""
  | x => x

/-- Apply a function to the first element of a list. -/
def setFirst (f : JSNode → JSNode) : List JSNode → List JSNode
  | [] => []
  | a :: r => f a :: r

/-- Apply a function to the last element of a list. -/
def setLast (f : JSNode → JSNode) : List JSNode → List JSNode
  | [] => []
  | [a] => [f a]
  | a :: r => a :: setLast f r

/-- The `for i in (0, -1)` boundary-emptying block of
`_compress_javascript_whitespace` (index 0 first, then index -1). -/
def trimBoundary (l : List JSNode) : List JSNode :=
  match l with
  | [] => []
  | _ => setLast emptyIfWs (setFirst emptyIfWs l)

mutual

/-- Recursive body of `_compress_javascript_whitespace` for one child
node: content rewrite for Whitespace and Operator tokens, recursion into
composite nodes, and the (unconditional) boundary-emptying of the node's
own children list. -/
def compressNode : JSNode → JSNode
  | .scope sid cs => .scope sid (trimBoundary (compressList cs))
  | .parens cs => .parens (trimBoundary (compressList cs))
  | .brackets cs => .brackets (trimBoundary (compressList cs))
  | .ws _ => .ws " "
  | .oper t => .oper (opFix t)
  | x => x

/-- Pointwise compression of a children list. -/
def compressList : List JSNode → List JSNode
  | [] => []
  | c :: r => compressNode c :: compressList r

end

/-- Compress every child, then empty a leading/trailing Whitespace
child, exactly as one call of `_compress_javascript_whitespace` does for
the node owning this children list. -/
def compressChildren (cs : List JSNode) : List JSNode :=
  trimBoundary (compressList cs)

/-- The `_compress_javascript_whitespace(js_node)` at the tree root (the
root token's children list). -/
def compress_javascript_whitespace (cs : List JSNode) : List JSNode :=
  trimBoundary (compressList cs)

/-! ## Serialization (the `output` methods)

`JavascriptVariable.output` emits the assigned replacement name if set,
otherwise follows the link, otherwise the original text.  The
assignment and link state built by the resolver is supplied as a
resolution function from variable identity to `Option String`; `none`
means "use the original lexed text". -/

mutual

/-- The kind-specific `output` methods of the node classes. -/
def outputNode (res : Nat → Option String) : JSNode → String
  | .scope _ cs => "\x7b" ++ outputList res cs ++ "\x7d"
  | .parens cs => "(" ++ outputList res cs ++ ")"
  | .brackets cs => "[" ++ outputList res cs ++ "]"
  | .ws t => t
  | .oper t => t
  | .kw t => t
  | .jvar vid t => (res vid).getD t
  | .dqstr t => "\"" ++ escQuotes t ++ "\""
  | .sqstr t => "'" ++ escSingle t ++ "'"
  | .regex t => t
  | .num t => t
  | .django => ""
  | .reqws t => t

/-- Concatenated output of a children list. -/
def outputList (res : Nat → Option String) : List JSNode → String
  | [] => ""
  | c :: r => outputNode res c ++ outputList res r

end

/-- Resolution function that leaves every variable's original text in
place (the state before the resolver has run). -/
def noResolve : Nat → Option String := fun _ => none

/-! ## Errors (`CompileException` variants, lex errors, and the Python
runtime errors reachable from the passes) -/

inductive JsErr where
  | lexError (state : String)
  | missingSemicolon
  | trailingComma
  | paramListUnexpected
  | expectedBrace
  | expectedParen
  | gettextUnexpected
  | indexError
  | outOfFuel
deriving Repr, DecidableEq

/-! ## Statement validator (`_validate_javascript`) -/

/-- The `isinstance(c, JavascriptWhiteSpace)`. -/
def isWsNode : JSNode → Bool
  | .ws _ => true
  | _ => false

mutual

/-- The `child_nodes_of_class(JavascriptScope)`: every Scope descendant, in
document (pre-)order, with its children list. -/
def scopesOfNode : JSNode → List (Nat × List JSNode)
  | .scope sid cs => (sid, cs) :: scopesOfList cs
  | .parens cs => scopesOfList cs
  | .brackets cs => scopesOfList cs
  | _ => []

/-- Scope descendants of all nodes of a children list, in order. -/
def scopesOfList : List JSNode → List (Nat × List JSNode)
  | [] => []
  | c :: r => scopesOfNode c ++ scopesOfList r

end

/-- The backwards `while j > 0 and isinstance(scope.children[j], WS)`
loop of `get_last_non_whitespace_token`, started at `j`. -/
def lastNonWsAux (children : List JSNode) : Nat → Nat
  | 0 => 0
  | j + 1 =>
      if isWsNode ((children.get? (j + 1)).getD .django) then lastNonWsAux children j
      else j + 1

/-- The `get_last_non_whitespace_token` of the validator: the token at the
largest index `j` with `0 < j < i` that is not whitespace — with the
quirk that index `0` is never returned (`if j:` in the source). -/
def get_last_non_whitespace_token (children : List JSNode) (i : Nat) : Option JSNode :=
  if i > 0 then
    if lastNonWsAux children (i - 1) ≠ 0 then children.get? (lastNonWsAux children (i - 1))
    else none
  else none

/-- The token kinds accepted strictly before a `var` keyword by the
validator: `;` or `:` operators, Scope or DjangoTag nodes, and closed
Parentheses groups. -/
def allowedBeforeVar : JSNode → Bool
  | .oper t => operatorText t = ";" || operatorText t = ":"
  | .scope _ _ => true
  | .django => true
  | .parens _ => true
  | _ => false

/-- The `var` branch of the validator scan: raise MissingSemicolon iff
the last-non-whitespace lookup yields a disallowed token. -/
def varBranch (children : List JSNode) (i : Nat) : Except JsErr Unit :=
  match get_last_non_whitespace_token children i with
  | some t => if allowedBeforeVar t then .ok () else .error .missingSemicolon
  | none => .ok ()

/-- The `scope.children[i]`, raising IndexError when out of range. -/
def nodeAt (children : List JSNode) (i : Nat) : Except JsErr JSNode :=
  match children.get? i with
  | some c => .ok c
  | none => .error .indexError

/-- The unguarded `while isinstance(current_node(), JavascriptWhiteSpace):
next()` loops of the validator (IndexError past the end).  The fuel
argument only bounds the loop; `children.length + 1` rounds always
reach a non-whitespace node or the IndexError. -/
def skipWsStrict (children : List JSNode) : Nat → Nat → Except JsErr Nat
  | 0, _ => .error .outOfFuel
  | fuel + 1, i =>
      match children.get? i with
      | none => .error .indexError
      | some c => if isWsNode c then skipWsStrict children fuel (i + 1) else .ok i

/-- The `while has_node() and isinstance(current_node(), WS)` loop. -/
def skipWsLenient (children : List JSNode) : Nat → Nat → Nat
  | 0, i => i
  | fuel + 1, i =>
      match children.get? i with
      | none => i
      | some c => if isWsNode c then skipWsLenient children fuel (i + 1) else i

/-- Keywords handled by the construct-skipping branch of the scan. -/
def kwGroup : List String := ["for", "if", "switch", "function", "try", "catch", "while"]

/-- The `for|if|switch|function|try|catch|while` branch: fail if a
semicolon was pending, remember a pending semicolon for
function-expression assignments, then skip the keyword, the optional
function name, the optional parameter group and the optional scope;
returns the index after the construct (`i[0] -= 1` followed by the
loop's `next()`) and the new pending flag. -/
def functionBranch (children : List JSNode) (i : Nat) (kwname : String)
    (pending : Bool) : Except JsErr (Nat × Bool) := do
  if pending then throw .missingSemicolon
  let (i1, pending1) ←
    if kwname = "function" then do
      let pending1 :=
        match get_last_non_whitespace_token children i with
        | some (.oper t) => operatorText t = "="
        | _ => false
      let j ← skipWsStrict children (children.length + 1) (i + 1)
      let j :=
        match children.get? j with
        | some (.jvar _ _) => j + 1
        | _ => j
      pure (j, pending1)
    else
      pure (i + 1, false)
  let i2 ← skipWsStrict children (children.length + 1) i1
  let i3 :=
    match children.get? i2 with
    | some (.parens _) => i2 + 1
    | _ => i2
  let i4 := skipWsLenient children (children.length + 1) i3
  let i5 :=
    match children.get? i4 with
    | some (.scope _ _) => i4 + 1
    | _ => i4
  pure (i5, pending1)

/-- One iteration of the validator's scan loop at cursor `i`: returns
the next cursor and pending flag, or the raised error.  The branch
structure mirrors the `while has_node()` body of `_validate_javascript`;
tokens matched by no branch (numbers, strings, regex objects, Django
tags) fall through with the flag unchanged. -/
def valStep (children : List JSNode) (i : Nat) (pending : Bool) :
    Except JsErr (Nat × Bool) := do
  let c ← nodeAt children i
  match c with
  | .kw k =>
      if kwGroup.contains k then functionBranch children i k pending
      else if k = "var" then do
        varBranch children i
        pure (i + 1, pending)
      else if k = "return" then
        if pending then throw .missingSemicolon else pure (i + 1, false)
      else pure (i + 1, pending)
  | .oper _ => pure (i + 1, false)
  | .parens _ => pure (i + 1, true)
  | .brackets _ => pure (i + 1, true)
  | .scope _ _ => pure (i + 1, false)
  | .jvar _ _ => if pending then throw .missingSemicolon else pure (i + 1, true)
  | .ws _ => pure (i + 1, pending)
  | _ => pure (i + 1, pending)

/-- The fueled `while has_node()` loop of the validator scan. -/
def valScan (children : List JSNode) : Nat → Nat → Bool → Except JsErr Unit
  | 0, _, _ => .error .outOfFuel
  | fuel + 1, i, pending =>
      if i < children.length then
        match valStep children i pending with
        | .ok (i2, p2) => valScan children fuel i2 p2
        | .error e => .error e
      else .ok ()

/-- Scan of one scope's direct children (every `valStep` advances the
cursor by at least one, so `length + 1` rounds of fuel always reach the
end). -/
def scanScope (children : List JSNode) : Except JsErr Unit :=
  valScan children (children.length + 1) 0 false

/-- Fail-fast iteration of a check over a list. -/
def forEachE (f : α → Except JsErr Unit) : List α → Except JsErr Unit
  | [] => .ok ()
  | a :: r => do
      f a
      forEachE f r

/-- The trailing-comma rejection: a Scope whose last child is a comma
operator is a fatal error. -/
def checkTrailingComma (scs : List JSNode) : Except JsErr Unit :=
  match scs.getLast? with
  | some (.oper t) => if operatorText t = "," then .error .trailingComma else .ok ()
  | _ => .ok ()

/-- The `_validate_javascript(js_node)`: trailing-comma check over every
Scope descendant, then the statement scan over the root's children and
over every Scope's children. -/
def validate_javascript (cs : List JSNode) : Except JsErr Unit := do
  forEachE checkTrailingComma ((scopesOfList cs).map Prod.snd)
  scanScope cs
  forEachE scanScope ((scopesOfList cs).map Prod.snd)

/-! ## Scope resolver and renamer (`_minify_variable_names`)

Mutable node state is modelled explicitly: `MSt.tables` holds each
scope's symbol table (scope identity to association list of declared
name and declaring variable identity, in insertion order), `MSt.link`
the `link_to_variable` edges (variable identity to target identity, in
creation order) and `MSt.globals` the `global_variable_names` list. -/

structure MSt where
  tables : List (Nat × List (String × Nat))
  link : List (Nat × Nat)
  globals : List String

/-- Empty resolver state. -/
def MSt.empty : MSt := ⟨[], [], []⟩

/-- Association-list lookup by numeric key. -/
def alookupN {α : Type} (l : List (Nat × α)) (k : Nat) : Option α :=
  match l with
  | [] => none
  | (k2, v) :: r => if k2 = k then some v else alookupN r k

/-- Association-list lookup by string key. -/
def alookupS {α : Type} (l : List (String × α)) (k : String) : Option α :=
  match l with
  | [] => none
  | (k2, v) :: r => if k2 = k then some v else alookupS r k

/-- The symbol table of a scope (empty when nothing was inserted yet). -/
def tblOf (st : MSt) (sid : Nat) : List (String × Nat) :=
  (alookupN st.tables sid).getD []

/-- The `var.varname in scope.symbol_table` / `scope.symbol_table[varname]`. -/
def tblFind (st : MSt) (sid : Nat) (name : String) : Option Nat :=
  alookupS (tblOf st sid) name

/-- Table-list update of `tblInsert`: append the entry to the table of
the given scope identity, creating it when absent. -/
def tblInsertGo (sid : Nat) (name : String) (vid : Nat) :
    List (Nat × List (String × Nat)) → List (Nat × List (String × Nat))
  | [] => [(sid, [(name, vid)])]
  | (k, es) :: r =>
      if k = sid then (k, es ++ [(name, vid)]) :: r
      else (k, es) :: tblInsertGo sid name vid r

/-- Insert a fresh entry into one scope's symbol table, keeping
insertion order; other scopes' tables unchanged. -/
def tblInsert (st : MSt) (sid : Nat) (name : String) (vid : Nat) : MSt :=
  { st with tables := tblInsertGo sid name vid st.tables }

/-- The `JavascriptVariable.link_to_variable`: record a link unless the
target is the variable itself. -/
def link_to_variable (st : MSt) (selfId target : Nat) : MSt :=
  if target = selfId then st else { st with link := st.link ++ [(selfId, target)] }

/-- The `add_var_to_scope`: a second declaration of the same name links to
the first instead of creating a new symbol-table entry. -/
def add_var_to_scope (st : MSt) (sid : Nat) (vid : Nat) (name : String) : MSt :=
  match tblFind st sid name with
  | some tid => link_to_variable st vid tid
  | none => tblInsert st sid name vid

/-- First non-whitespace node of a node list together with the nodes
after it; IndexError when the list runs out (the unguarded `nodelist[i]`
walks of `find_variables_in_function_parameter_list`). -/
def plSkipWs : List JSNode → Except JsErr (JSNode × List JSNode)
  | [] => .error .indexError
  | c :: r => if isWsNode c then plSkipWs r else .ok (c, r)

/-- The parameter-collecting loop over the children of the parameter
parentheses: whitespace is skipped, variables are collected, a comma is
accepted only directly after a variable, anything else is the fatal
`Unexpected token in function parameter list`. -/
def plCollect : List JSNode → Bool → Except JsErr (List (String × Nat))
  | [], _ => .ok []
  | c :: r, needComma =>
      match c with
      | .ws _ => plCollect r needComma
      | .jvar vid name => do
          let rest ← plCollect r true
          pure ((name, vid) :: rest)
      | .oper t =>
          if operatorText t = "," && needComma then plCollect r false
          else .error .paramListUnexpected
      | _ => .error .paramListUnexpected

/-- Final step of the parameter-list parse: the node after the
parameter parentheses (and whitespace) must be a Scope, whose symbol
table receives every collected parameter. -/
def plExpectScope (st : MSt) (params : List (String × Nat)) : JSNode → Except JsErr MSt
  | .scope sid _ => .ok (params.foldl (fun st p => add_var_to_scope st sid p.2 p.1) st)
  | _ => .error .expectedBrace

/-- Middle step of the parameter-list parse: the node after the
optional function name must be a Parentheses group; its children are
collected as parameters and bound into the following Scope. -/
def plExpectParens (st : MSt) (r2 : List JSNode) : JSNode → Except JsErr MSt
  | .parens pcs => do
      let params ← plCollect pcs false
      let (n3, _) ← plSkipWs r2
      plExpectScope st params n3
  | _ => .error .expectedParen

/-- The parameter-list parse given the nodes after the `function`
keyword: skip whitespace, an optional function name and more
whitespace, then read the parenthesized list and bind it. -/
def find_variables_in_function_parameter_list (st : MSt)
    (afterKw : List JSNode) : Except JsErr MSt := do
  let (n1, r1) ← plSkipWs afterKw
  let (n2, r2) ←
    match n1 with
    | .jvar _ _ => plSkipWs r1
    | _ => pure (n1, r1)
  plExpectParens st r2 n2

mutual

/-- Recursion of `find_variables` into one child: a Scope child becomes
its own scope with the root flag cleared and a fresh
`next_is_variable`; Parentheses, SquareBrackets and every other token
continue in the same enclosing scope with the same root flag; leaves
have nothing below them. -/
def find_variables_into (inRoot : Bool) (sid : Nat) (st : MSt) :
    JSNode → Except JsErr MSt
  | .scope sid2 cs => find_variables false sid2 st false cs
  | .parens cs => find_variables inRoot sid st false cs
  | .brackets cs => find_variables inRoot sid st false cs
  | _ => .ok st

/-- The `find_variables` (pass 1, declaration collection) over a children
list.  `nv` is the `next_is_variable` flag: set by a `var`/`function`
keyword outside the root, consumed by the next Variable, preserved by
whitespace, cleared by everything else. -/
def find_variables (inRoot : Bool) (sid : Nat) (st : MSt) (nv : Bool) :
    List JSNode → Except JsErr MSt
  | [] => .ok st
  | c :: rest =>
      match c with
      | .kw k =>
          if (k = "function" || k = "var") && !inRoot then do
            let st2 ←
              if k = "function" then find_variables_in_function_parameter_list st rest
              else pure st
            find_variables inRoot sid st2 true rest
          else
            find_variables inRoot sid st false rest
      | .jvar vid name =>
          if nv then
            find_variables inRoot sid (add_var_to_scope st sid vid name) false rest
          else
            find_variables inRoot sid st false rest
      | .ws _ => find_variables inRoot sid st nv rest
      | other => do
          let st2 ← find_variables_into inRoot sid st other
          find_variables inRoot sid st2 false rest

end

/-- Ordered search of the enclosing-scope stack in
`find_free_variables`. -/
def lookupScopes (st : MSt) (sids : List Nat) (name : String) : Option Nat :=
  match sids with
  | [] => none
  | s :: r =>
      match tblFind st s name with
      | some vid => some vid
      | none => lookupScopes st r name

mutual

/-- The `find_free_variables` (pass 2, reference resolution) over a
children list.  `skipNext` is the `skip_next_var` flag (set by a `.`
operator, reset by other operators, otherwise carried along); `prev` is
the node at `index - 1`.  A Variable that is not skipped, whose next
sibling is not a colon operator (unless its previous sibling is the `?`
operator), is linked to the innermost enclosing declaration of its name
or recorded as a global name. -/
def find_free_variables (sids : List Nat) (st : MSt) (skipNext : Bool)
    (prev : Option JSNode) : List JSNode → MSt
  | [] => st
  | c :: rest =>
      match c with
      | .oper t => find_free_variables sids st (operatorText t = ".") (some c) rest
      | .jvar vid name =>
          let skip1 :=
            match rest.head? with
            | some (.oper t) => if operatorText t = ":" then true else skipNext
            | _ => skipNext
          let skip2 :=
            match prev with
            | some (.oper t) => if operatorText t = "?" then false else skip1
            | _ => skip1
          let st2 :=
            if skip2 then st
            else
              match lookupScopes st sids name with
              | some tid => link_to_variable st vid tid
              | none => { st with globals := st.globals ++ [name] }
          find_free_variables sids st2 skip2 (some c) rest
      | other =>
          let st2 := find_free_into sids st other
          find_free_variables sids st2 skipNext (some c) rest

/-- Recursion of `find_free_variables` into one child: a Scope child is
pushed onto the enclosing-scope stack, other containers continue with
the same stack; the `skip_next_var` flag and previous-sibling slot are
fresh inside every recursive call. -/
def find_free_into (sids : List Nat) (st : MSt) : JSNode → MSt
  | .scope sid2 cs => find_free_variables (sid2 :: sids) st false none cs
  | .parens cs => find_free_variables sids st false none cs
  | .brackets cs => find_free_variables sids st false none cs
  | _ => st

end

/-- The two analysis passes of `_minify_variable_names`, started from
the document root exactly as in the source: `find_variables(js_node,
js_node)` (the root is its own scope object with root flag set, so
nothing is ever filed under its table) and `find_free_variables(js_node,
[ ])`. -/
def minifyAnalyze (cs : List JSNode) : Except JsErr MSt := do
  let st ← find_variables true 0 MSt.empty false cs
  pure (find_free_variables [] st false none cs)

/-- All variable identities stored as a declaration entry in some
scope's symbol table. -/
def entryVals (st : MSt) : List Nat :=
  (st.tables.map (fun q => q.2.map Prod.snd)).join

/-- Well-formedness of the link state: no variable links to itself and
every link target is stored in some scope's symbol table. -/
def LinkOk (st : MSt) : Prop :=
  ∀ p ∈ st.link, p.1 ≠ p.2 ∧ p.2 ∈ entryVals st

/-- The `__JS_KEYWORDS` exactly as in the source (note `gcase`). -/
def JS_KEYWORDS : List String :=
  ["break", "catch", "const", "continue", "debugger", "default", "delete", "do",
   "else", "enum", "false", "finally", "for", "function", "gcase", "if", "new",
   "null", "return", "switch", "this", "throw", "true", "try", "typeof", "var",
   "void", "while", "with"]

/-- The `output(c)` of `generate_varname`: each entry of the numeral array
is an index into `string.lowercase`, joined in array order (least
significant position first). -/
def outName (c : List Nat) : String :=
  String.mk (c.map (fun i => Char.ofNat (97 + i)))

/-- The overflow-detection sweep of `generate_varname`, propagating a
carry from the (already incremented) digit `d` into the remaining
digits: a digit that reached 26 is reset and the next position
incremented, appending a new `0` digit past the end. -/
def carryProp (d : Nat) : List Nat → List Nat
  | [] => if d = 26 then [0, 0] else [d]
  | e :: r => if d = 26 then 0 :: carryProp (e + 1) r else d :: carryProp e r

/-- One iteration of the `while` body: `c[0] += 1` followed by the
overflow sweep. -/
def stepName : List Nat → List Nat
  | [] => []
  | d :: r => carryProp (d + 1) r

/-- The fueled `while output(c) in avoid_names` loop; `none` only when
the fuel runs out, which a fresh name within `avoid` + 1 iterations
prevents for every reachable call. -/
def genLoop : Nat → List Nat → List String → Option String
  | 0, _, _ => none
  | fuel + 1, c, avoid =>
      if outName c ∈ avoid then genLoop fuel (stepName c) avoid
      else some (outName c)

/-- The `generate_varname(avoid_names)`: the reserved keywords are appended
to the avoid list and the name counter starts at `[0]` (the name
`a`). -/
def generate_varname (avoid : List String) : Option String :=
  let avoid2 := avoid ++ JS_KEYWORDS
  genLoop (avoid2.length + 1) [0] avoid2

/-- Rename one symbol table in iteration order: each entry receives a
freshly generated name, which is appended to the avoid list for the
following entries (`avoid_names = avoid_names + [ new_name ]`). -/
def renameTable (entries : List (String × Nat)) (avoid : List String)
    (assign : List (Nat × String)) :
    Except JsErr (List String × List (Nat × String)) :=
  match entries with
  | [] => .ok (avoid, assign)
  | (_, vid) :: r => do
      match generate_varname avoid with
      | some n => renameTable r (avoid ++ [n]) (assign ++ [(vid, n)])
      | none => .error .outOfFuel

mutual

/-- The `rename_variables(js_node, avoid_names)` (pass 3): scopes assign
new names to their symbol-table entries first, then every node passes a
copy of its (possibly grown) avoid list to each child. -/
def rename_variables (st : MSt) (assign : List (Nat × String))
    (avoid : List String) : JSNode → Except JsErr (List (Nat × String))
  | .scope sid cs => do
      let (avoid2, assign2) ← renameTable (tblOf st sid) avoid assign
      renameList st assign2 avoid2 cs
  | .parens cs => renameList st assign avoid cs
  | .brackets cs => renameList st assign avoid cs
  | _ => .ok assign

/-- Child traversal of `rename_variables`. -/
def renameList (st : MSt) (assign : List (Nat × String))
    (avoid : List String) : List JSNode → Except JsErr (List (Nat × String))
  | [] => .ok assign
  | c :: r => do
      let assign2 ← rename_variables st assign avoid c
      renameList st assign2 avoid r

end

mutual

/-- Original lexed text of every variable node, by identity (the
`Token.output` fallback that link targets render with). -/
def varTexts : JSNode → List (Nat × String)
  | .scope _ cs => varTextsList cs
  | .parens cs => varTextsList cs
  | .brackets cs => varTextsList cs
  | .jvar vid t => [(vid, t)]
  | _ => []

/-- The `varTexts` over a children list. -/
def varTextsList : List JSNode → List (Nat × String)
  | [] => []
  | c :: r => varTexts c ++ varTextsList r

end

/-- The `JavascriptVariable.output` as a resolution function: an assigned
name wins, otherwise the link target is rendered (its assigned name,
else transitively, else its original text), otherwise `none` (the
caller's own original text). -/
def resolveVar (assign : List (Nat × String)) (link : List (Nat × Nat))
    (vtext : List (Nat × String)) : Nat → Nat → Option String
  | 0, _ => none
  | fuel + 1, vid =>
      match alookupN assign vid with
      | some n => some n
      | none =>
          match alookupN link vid with
          | some tid =>
              match resolveVar assign link vtext fuel tid with
              | some n => some n
              | none => alookupN vtext tid
          | none => none

/-- The `_minify_variable_names(js_node)`: the two analysis passes followed
by `rename_variables(js_node, global_variable_names[:])`; the result is
the resolution function for serialization. -/
def minify_variable_names (cs : List JSNode) :
    Except JsErr (Nat → Option String) := do
  let st ← minifyAnalyze cs
  let assign ← renameList st [] st.globals cs
  pure (resolveVar assign st.link (varTextsList cs) (st.link.length + 1))

/-! ## Gettext literal-call rewriter (`_process_gettext`)

`translate_js` resolves text through an external, locale-keyed catalog
(identity when no catalog file exists); it is supplied as the function
argument `tr`.  `context.remember_gettext` is modelled by returning the
list of remembered texts in call order. -/

/-- The `JavascriptString.value`: the raw recorded content (escapes for
quotes already removed by the lexer). -/
def stringValue : JSNode → Option String
  | .dqstr t => some t
  | .sqstr t => some t
  | _ => none

mutual

/-- A Parentheses group `contains_django_tags` when an opaque embedded
tag occurs anywhere below it. -/
def hasDjango : JSNode → Bool
  | .django => true
  | .scope _ cs => hasDjangoList cs
  | .parens cs => hasDjangoList cs
  | .brackets cs => hasDjangoList cs
  | _ => false

/-- The `hasDjango` over a children list. -/
def hasDjangoList : List JSNode → Bool
  | [] => false
  | c :: r => hasDjango c || hasDjangoList r

end

/-- Body reader of the gettext call: `+` operators are skipped, string
values are concatenated, anything else is the fatal `Unexpected token
inside gettext(...)`. -/
def gtBody : List JSNode → Except JsErr String
  | [] => .ok ""
  | c :: r =>
      match c with
      | .oper t =>
          if operatorText t = "+" then gtBody r
          else .error .gettextUnexpected
      | .dqstr t => do
          let rest ← gtBody r
          pure (t ++ rest)
      | .sqstr t => do
          let rest ← gtBody r
          pure (t ++ rest)
      | _ => .error .gettextUnexpected

/-- First index at or after `i` holding a non-whitespace node; `none`
when the list runs out (the caught IndexError of `_process_gettext`).
Fueled with `length + 1` rounds by its caller, which always suffices. -/
def firstNonWsIdx (nodes : List JSNode) : Nat → Nat → Option Nat
  | 0, _ => none
  | fuel + 1, i =>
      match nodes.get? i with
      | none => none
      | some c => if isWsNode c then firstNonWsIdx nodes fuel (i + 1) else some i

/-- The `for i, c in enumerate(nodes)` scan of `_process_gettext` over
one children list, with Python iterator semantics under mutation: after
a rewrite the cursor moves to the next index of the *mutated* list.  A
`gettext` Variable followed (modulo whitespace) by a Parentheses group
without embedded tags has its body read and remembered; unless
validating only, the Variable is turned into a double-quoted string
holding the translated text with quotes escaped
(`translation.replace(u'"', ur'\"')`) and the group is removed. -/
def pgScan (tr : String → String) (vOnly : Bool) (nodes : List JSNode)
    (k : Nat) (fuel : Nat) (rem : List String) :
    Except JsErr (List JSNode × List String) :=
  match fuel with
  | 0 => .error .outOfFuel
  | fuel + 1 =>
      match nodes.get? k with
      | none => .ok (nodes, rem)
      | some c =>
          match c with
          | .jvar _ name =>
              if name = "gettext" then
                match firstNonWsIdx nodes (nodes.length + 1) (k + 1) with
                | none => pgScan tr vOnly nodes (k + 1) fuel rem
                | some j =>
                    match nodes.get? j with
                    | some (.parens pcs) =>
                        if hasDjangoList pcs then pgScan tr vOnly nodes (k + 1) fuel rem
                        else
                          match gtBody pcs with
                          | .error e => .error e
                          | .ok body =>
                              if vOnly then pgScan tr vOnly nodes (k + 1) fuel (rem ++ [body])
                              else
                                pgScan tr vOnly
                                  ((nodes.set k (.dqstr (escQuotes (tr body)))).eraseIdx j)
                                  (k + 1) fuel (rem ++ [body])
                    | _ => pgScan tr vOnly nodes (k + 1) fuel rem
              else pgScan tr vOnly nodes (k + 1) fuel rem
          | _ => pgScan tr vOnly nodes (k + 1) fuel rem

mutual

/-- Number of nodes of a subtree (fuel bound for the gettext walk). -/
def countNode : JSNode → Nat
  | .scope _ cs => 1 + countList cs
  | .parens cs => 1 + countList cs
  | .brackets cs => 1 + countList cs
  | _ => 1

/-- Number of nodes below a children list. -/
def countList : List JSNode → Nat
  | [] => 0
  | c :: r => countNode c + countList r

end

mutual

/-- The `_process_gettext` for one Scope/SquareBrackets/Parentheses node
in document order (the node's own children scan first, then the
children).  The document root's own children list is never scanned,
matching `child_nodes_of_class`. -/
def process_gettext_node (tr : String → String) (vOnly : Bool) :
    Nat → List String → JSNode → Except JsErr (JSNode × List String)
  | 0, _, _ => .error .outOfFuel
  | fuel + 1, rem, node =>
      match node with
      | .scope sid cs => do
          let (cs2, rem2) ← pgScan tr vOnly cs 0 (cs.length + 1) rem
          let (cs3, rem3) ← process_gettext_list tr vOnly fuel rem2 cs2
          pure (.scope sid cs3, rem3)
      | .parens cs => do
          let (cs2, rem2) ← pgScan tr vOnly cs 0 (cs.length + 1) rem
          let (cs3, rem3) ← process_gettext_list tr vOnly fuel rem2 cs2
          pure (.parens cs3, rem3)
      | .brackets cs => do
          let (cs2, rem2) ← pgScan tr vOnly cs 0 (cs.length + 1) rem
          let (cs3, rem3) ← process_gettext_list tr vOnly fuel rem2 cs2
          pure (.brackets cs3, rem3)
      | other => pure (other, rem)

/-- Gettext processing of the nodes of a children list, left to right. -/
def process_gettext_list (tr : String → String) (vOnly : Bool) :
    Nat → List String → List JSNode → Except JsErr (List JSNode × List String)
  | 0, _, _ => .error .outOfFuel
  | _ + 1, rem, [] => .ok ([], rem)
  | fuel + 1, rem, c :: r => do
      let (c2, rem2) ← process_gettext_node tr vOnly fuel rem c
      let (r2, rem3) ← process_gettext_list tr vOnly fuel rem2 r
      pure (c2 :: r2, rem3)

end

/-- The `_process_gettext(js_node, context)` from the document root: the
scan applies inside every Scope/SquareBrackets/Parentheses descendant
but not to the root's own children list.  Returns the processed tree
and the texts given to `context.remember_gettext`, in call order. -/
def process_gettext (tr : String → String) (vOnly : Bool)
    (cs : List JSNode) : Except JsErr (List JSNode × List String) :=
  process_gettext_list tr vOnly (2 * countList cs + 4) [] cs

/-! ## Structural fix-up (`fix_whitespace_bug`) -/

mutual

/-- The `fix_whitespace_bug(js_node)`: every Scope whose first child
renders to a leading left brace receives a `required-whitespace` token
holding one space in front of that child. -/
def fix_whitespace_bug_node (res : Nat → Option String) : JSNode → JSNode
  | .scope sid cs =>
      let needsSpace : Bool :=
        match cs.head? with
        | some c0 => (outputNode res c0).data.take 1 == ['\x7b']
        | none => false
      let cs2 := fix_whitespace_bug_list res cs
      if needsSpace then .scope sid (.reqws " " :: cs2) else .scope sid cs2
  | .parens cs => .parens (fix_whitespace_bug_list res cs)
  | .brackets cs => .brackets (fix_whitespace_bug_list res cs)
  | other => other

/-- The `fix_whitespace_bug` over a children list. -/
def fix_whitespace_bug_list (res : Nat → Option String) : List JSNode → List JSNode
  | [] => []
  | c :: r => fix_whitespace_bug_node res c :: fix_whitespace_bug_list res r

end

/-- The `fix_whitespace_bug` from the document root (the root token itself
is not a Scope). -/
def fix_whitespace_bug (res : Nat → Option String) (cs : List JSNode) : List JSNode :=
  fix_whitespace_bug_list res cs

/-! ## Lexer

The `__JS_STATES` state table is translated transition by transition
from the source; the driving engine (`lexer_engine.tokenize`, not part
of the source tree) is modelled from the specification: a stack of
active states, transitions tried in table order at the current
position, `StartToken`/`StopToken` building the nested tree,
`Record` accumulating token text, `Shift` consuming the match and
`Push`/`Pop` manipulating the state stack. -/

/-- Longest whitespace prefix and the remainder (regex `\s*`). -/
def spanWs (l : List Char) : List Char × List Char :=
  (l.takeWhile isPyWs, l.dropWhile isPyWs)

/-- Match a literal character sequence, returning the remainder. -/
def matchLit : List Char → List Char → Option (List Char)
  | [], s => some s
  | c :: l, d :: s => if c = d then matchLit l s else none
  | _ :: _, [] => none

/-- Identifier characters `[a-zA-Z_$0-9]` (the keyword lookahead class
and the varname continuation class). -/
def isIdentChar (c : Char) : Bool :=
  ('a' ≤ c && c ≤ 'z') || ('A' ≤ c && c ≤ 'Z') || ('0' ≤ c && c ≤ '9') || c = '_' || c = '$'

/-- Identifier start characters `[a-zA-Z_$]`. -/
def isIdentStart (c : Char) : Bool :=
  ('a' ≤ c && c ≤ 'z') || ('A' ≤ c && c ≤ 'Z') || c = '_' || c = '$'

/-- Python regex word characters (the `\b` class, no dollar). -/
def isWordChar (c : Char) : Bool :=
  ('a' ≤ c && c ≤ 'z') || ('A' ≤ c && c ≤ 'Z') || ('0' ≤ c && c ≤ '9') || c = '_'

/-- Number characters `[0-9.]`. -/
def isNumChar (c : Char) : Bool :=
  ('0' ≤ c && c ≤ '9') || c = '.'

/-- Lowercase regex flags `[a-z]`. -/
def isLowerAscii (c : Char) : Bool :=
  'a' ≤ c && c ≤ 'z'

/-- The operator character class `[;,=?:|^&=!<>*%~\.+-]`. -/
def isOperChar (c : Char) : Bool :=
  c = ';' || c = ',' || c = '=' || c = '?' || c = ':' || c = '|' || c = '^' ||
  c = '&' || c = '!' || c = '<' || c = '>' || c = '*' || c = '%' || c = '~' ||
  c = '.' || c = '+' || c = '-'

/-- The keyword alternation of the `js-keyword` transition, in source
order (this list, unlike `__JS_KEYWORDS`, has `case`). -/
def kwTable : List String :=
  ["break", "catch", "const", "continue", "debugger", "default", "delete", "do",
   "else", "enum", "false", "finally", "for", "function", "case", "if", "new",
   "null", "return", "switch", "this", "throw", "true", "try", "typeof", "var",
   "void", "while", "with"]

/-- The `(?![a-zA-Z0-9_$])` after a keyword. -/
def kwBoundary : List Char → Bool
  | [] => true
  | c :: _ => !isIdentChar c

/-- First keyword of the alternation matching at this position. -/
def matchKw : List String → List Char → Option (String × List Char)
  | [], _ => none
  | k :: r, s =>
      match matchLit k.data s with
      | some rest => if kwBoundary rest then some (k, rest) else matchKw r s
      | none => matchKw r s

/-- The `\b` lookahead after `in`/`instanceof`. -/
def kwBoundaryWord : List Char → Bool
  | [] => true
  | c :: _ => !isWordChar c

/-- The `(?![/*])` lookahead after a slash. -/
def lookaheadNotCommentStart : List Char → Bool
  | '/' :: _ => false
  | '*' :: _ => false
  | _ => true

/-- Lexer states of `__JS_STATES`. -/
inductive LexState where
  | root
  | afterVarname
  | dqs
  | sqs
  | mlComment
  | slComment
  | regexObj
deriving Repr, DecidableEq

/-- Leaf-token kinds with recorded content. -/
inductive LeafKind where
  | dq
  | sq
  | rx
deriving Repr, DecidableEq

/-- Open container kinds of the token-tree builder. -/
inductive FrameKind where
  | top
  | fScope (sid : Nat)
  | fParens
  | fBrackets
deriving Repr, DecidableEq

/-- One open container: its kind and the children emitted so far. -/
structure Frame where
  kind : FrameKind
  acc : List JSNode

/-- Engine state: open containers (innermost first), state stack
(current first), fresh-identity counter and the currently recorded
leaf-token content. -/
structure LexSt where
  frames : List Frame
  states : List LexState
  nid : Nat
  cur : Option (LeafKind × List Char)

/-- Append a finished token to the innermost open container. -/
def lexEmit (st : LexSt) (n : JSNode) : LexSt :=
  match st.frames with
  | [] => st
  | f :: r => { st with frames := ⟨f.kind, f.acc ++ [n]⟩ :: r }

/-- The `StartToken` of a container kind. -/
def lexOpen (st : LexSt) (k : FrameKind) : LexSt :=
  { st with frames := ⟨k, []⟩ :: st.frames }

/-- The `StopToken('js-scope')`. -/
def lexCloseScope (st : LexSt) : Option LexSt :=
  match st.frames with
  | ⟨.fScope sid, acc⟩ :: r => some (lexEmit { st with frames := r } (.scope sid acc))
  | _ => none

/-- The `StopToken('js-parentheses')`. -/
def lexCloseParens (st : LexSt) : Option LexSt :=
  match st.frames with
  | ⟨.fParens, acc⟩ :: r => some (lexEmit { st with frames := r } (.parens acc))
  | _ => none

/-- The `StopToken('js-square-brackets')`. -/
def lexCloseBrackets (st : LexSt) : Option LexSt :=
  match st.frames with
  | ⟨.fBrackets, acc⟩ :: r => some (lexEmit { st with frames := r } (.brackets acc))
  | _ => none

/-- The `Push(state)`. -/
def lexPush (st : LexSt) (s : LexState) : LexSt :=
  { st with states := s :: st.states }

/-- The `Pop()`. -/
def lexPop (st : LexSt) : LexSt :=
  { st with states := st.states.tail }

/-- Modelled from the spec: the scan loop of the tokenizer engine over
the `__JS_STATES` table.  In each round the transitions of the current
state are tried in table order; at the end of the input the scan stops
and the collected token tree is returned (an unterminated string or
regex literal, or an unclosed group, is a lex error).  Every round
either consumes input or pops the state stack, so `2 * length + 4`
rounds of fuel always suffice. -/
def lexLoop : Nat → LexSt → List Char → Except JsErr (List JSNode)
  | 0, _, _ => .error .outOfFuel
  | fuel + 1, st, inp =>
      match inp with
      | [] =>
          if st.cur.isSome then .error (.lexError "eof-in-literal")
          else
            match st.frames with
            | [⟨.top, acc⟩] => .ok acc
            | _ => .error (.lexError "eof-open-group")
      | _ =>
          match st.states.headD .root, st.cur with
          | .root, _ =>
              let (w, r) := spanWs inp
              match r with
              | '\x7b' :: r2 =>
                  let (_, r3) := spanWs r2
                  lexLoop fuel { lexOpen st (.fScope st.nid) with nid := st.nid + 1 } r3
              | '\x7d' :: r2 =>
                  let (_, r3) := spanWs r2
                  match lexCloseScope st with
                  | some st2 => lexLoop fuel st2 r3
                  | none => .error (.lexError "root")
              | _ =>
                  match matchLit ['/', '*'] inp with
                  | some r2 => lexLoop fuel (lexPush st .mlComment) r2
                  | none =>
                  match matchLit ['/', '/'] inp with
                  | some r2 => lexLoop fuel (lexPush st .slComment) r2
                  | none =>
                  match inp with
                  | '"' :: r2 => lexLoop fuel { lexPush st .dqs with cur := some (.dq, []) } r2
                  | '\'' :: r2 => lexLoop fuel { lexPush st .sqs with cur := some (.sq, []) } r2
                  | _ =>
                  match matchKw kwTable inp with
                  | some (k, r2) => lexLoop fuel (lexEmit st (.kw k)) r2
                  | none =>
                  match
                    (match matchLit ['i', 'n', 's', 't', 'a', 'n', 'c', 'e', 'o', 'f'] r with
                     | some r2 => if kwBoundaryWord r2 then some ("instanceof", r2) else none
                     | none => none).orElse
                    (fun _ =>
                      match matchLit ['i', 'n'] r with
                      | some r2 => if kwBoundaryWord r2 then some ("in", r2) else none
                      | none => none)
                  with
                  | some (k, r2) =>
                      let (w2, r3) := spanWs r2
                      lexLoop fuel (lexEmit st (.oper (String.mk w ++ k ++ String.mk w2))) r3
                  | none =>
                  match r with
                  | c :: r2 =>
                      if isOperChar c then
                        let (w2, r3) := spanWs r2
                        lexLoop fuel (lexEmit st (.oper (String.mk (w ++ [c] ++ w2)))) r3
                      else
                        match c with
                        | '(' =>
                            let (_, r3) := spanWs r2
                            lexLoop fuel (lexOpen st .fParens) r3
                        | ')' =>
                            let (_, r3) := spanWs r2
                            match lexCloseParens st with
                            | some st2 => lexLoop fuel (lexPush st2 .afterVarname) r3
                            | none => .error (.lexError "root")
                        | '[' =>
                            let (_, r3) := spanWs r2
                            lexLoop fuel (lexOpen st .fBrackets) r3
                        | ']' =>
                            let (_, r3) := spanWs r2
                            match lexCloseBrackets st with
                            | some st2 => lexLoop fuel (lexPush st2 .afterVarname) r3
                            | none => .error (.lexError "root")
                        | _ =>
                            match inp with
                            | c0 :: rest0 =>
                                if isIdentStart c0 then
                                  let name := c0 :: rest0.takeWhile isIdentChar
                                  let r2 := rest0.dropWhile isIdentChar
                                  lexLoop fuel
                                    (lexPush
                                      { lexEmit st (.jvar st.nid (String.mk name)) with
                                        nid := st.nid + 1 }
                                      .afterVarname) r2
                                else if isNumChar c0 then
                                  let digits := c0 :: rest0.takeWhile isNumChar
                                  let r2 := rest0.dropWhile isNumChar
                                  lexLoop fuel
                                    (lexPush (lexEmit st (.num (String.mk digits))) .afterVarname) r2
                                else if w ≠ [] then
                                  lexLoop fuel (lexEmit st (.ws (String.mk w))) r
                                else
                                  match inp with
                                  | '/' :: r2 =>
                                      if lookaheadNotCommentStart r2 then
                                        lexLoop fuel
                                          { lexPush st .regexObj with cur := some (.rx, ['/']) } r2
                                      else .error (.lexError "root")
                                  | _ => .error (.lexError "root")
                            | [] => .error (.lexError "root")
                  | [] =>
                      if w ≠ [] then lexLoop fuel (lexEmit st (.ws (String.mk w))) r
                      else .error (.lexError "root")
          | .afterVarname, _ =>
              let (w, r) := spanWs inp
              if (match r with
                  | '/' :: r2 => lookaheadNotCommentStart r2
                  | _ => false) then
                let r2 := r.tail
                let (w2, r3) := spanWs r2
                lexLoop fuel (lexEmit st (.oper (String.mk (w ++ ['/'] ++ w2)))) r3
              else
                match matchLit ['/', '*'] inp with
                | some r4 => lexLoop fuel (lexPush st .mlComment) r4
                | none =>
                    match matchLit ['/', '/'] inp with
                    | some r4 => lexLoop fuel st (r4.dropWhile (fun c => c ≠ '\n'))
                    | none => lexLoop fuel (lexPop st) inp
          | .dqs, some (.dq, acc) =>
              (match inp with
               | '"' :: r =>
                   lexLoop fuel
                     { lexEmit (lexPop st) (.dqstr (String.mk acc)) with cur := none } r
               | '\\' :: '\'' :: r =>
                   lexLoop fuel { st with cur := some (.dq, acc ++ ['\'']) } r
               | '\\' :: '"' :: r =>
                   lexLoop fuel { st with cur := some (.dq, acc ++ ['"']) } r
               | '\\' :: c :: r =>
                   lexLoop fuel { st with cur := some (.dq, acc ++ ['\\', c]) } r
               | '\\' :: [] => .error (.lexError "double-quoted-string")
               | _ =>
                   let run := inp.takeWhile (fun c => c ≠ '"' && c ≠ '\\')
                   let r := inp.dropWhile (fun c => c ≠ '"' && c ≠ '\\')
                   if run = [] then .error (.lexError "double-quoted-string")
                   else lexLoop fuel { st with cur := some (.dq, acc ++ run) } r)
          | .sqs, some (.sq, acc) =>
              (match inp with
               | '\'' :: r =>
                   lexLoop fuel
                     { lexEmit (lexPop st) (.sqstr (String.mk acc)) with cur := none } r
               | '\\' :: '\'' :: r =>
                   lexLoop fuel { st with cur := some (.sq, acc ++ ['\'']) } r
               | '\\' :: '"' :: r =>
                   lexLoop fuel { st with cur := some (.sq, acc ++ ['"']) } r
               | '\\' :: c :: r =>
                   lexLoop fuel { st with cur := some (.sq, acc ++ ['\\', c]) } r
               | '\\' :: [] => .error (.lexError "single-quoted-string")
               | _ =>
                   let run := inp.takeWhile (fun c => c ≠ '\'' && c ≠ '\\')
                   let r := inp.dropWhile (fun c => c ≠ '\'' && c ≠ '\\')
                   if run = [] then .error (.lexError "single-quoted-string")
                   else lexLoop fuel { st with cur := some (.sq, acc ++ run) } r)
          | .mlComment, _ =>
              (match matchLit ['*', '/'] inp with
               | some r => lexLoop fuel (lexPop st) r
               | none => lexLoop fuel st inp.tail)
          | .slComment, _ =>
              (match inp with
               | '\n' :: r => lexLoop fuel (lexPop st) r
               | _ :: r => lexLoop fuel st r
               | [] => .error (.lexError "singleline-comment"))
          | .regexObj, some (.rx, acc) =>
              (match inp with
               | '\\' :: c :: r =>
                   if c = '\n' then .error (.lexError "regex-object")
                   else lexLoop fuel { st with cur := some (.rx, acc ++ ['\\', c]) } r
               | '\\' :: [] => .error (.lexError "regex-object")
               | '/' :: r =>
                   let flags := r.takeWhile isLowerAscii
                   let r2 := r.dropWhile isLowerAscii
                   lexLoop fuel
                     { lexEmit (lexPop st) (.regex (String.mk (acc ++ ['/'] ++ flags))) with
                       cur := none } r2
               | _ =>
                   let run := inp.takeWhile (fun c => c ≠ '/' && c ≠ '\\')
                   let r := inp.dropWhile (fun c => c ≠ '/' && c ≠ '\\')
                   if run = [] then .error (.lexError "regex-object")
                   else lexLoop fuel { st with cur := some (.rx, acc ++ run) } r)
          | _, _ => .error (.lexError "engine")

/-- Modelled from the spec: `tokenize(tree, __JS_STATES, Token)` for a
standalone source string — scan from the `root` state inside a single
top-level container, numbering variable and scope identities in lexing
order. -/
def lexString (s : String) : Except JsErr (List JSNode) :=
  lexLoop (2 * s.data.length + 4) ⟨[⟨.top, []⟩], [.root], 0, none⟩ s.data

/-- The `_compile(js_node, context)`: validation, whitespace compression,
gettext processing and variable-name minification, in source order,
followed by `fix_whitespace_bug`.  `tr` is the external translation
resolver for the active locale.  Returns the processed children list,
the resolution function and the remembered gettext texts. -/
def compileTree (tr : String → String) (cs : List JSNode) :
    Except JsErr (List JSNode × (Nat → Option String) × List String) := do
  validate_javascript cs
  let cs := compress_javascript_whitespace cs
  let (cs, remembered) ← process_gettext tr false cs
  let res ← minify_variable_names cs
  pure (fix_whitespace_bug res cs, res, remembered)

/-- The `compile_javascript_string(js_string, context)`: tokenize the
string, compile the tree and serialize it. -/
def compile_javascript_string (tr : String → String) (s : String) :
    Except JsErr String := do
  let cs ← lexString s
  let (cs2, res, _) ← compileTree tr cs
  pure (outputList res cs2)

/-- The `compile_javascript_string` together with the texts reported to the
gettext catalog collector. -/
def compile_javascript_string_remembered (tr : String → String) (s : String) :
    Except JsErr (String × List String) := do
  let cs ← lexString s
  let (cs2, res, remembered) ← compileTree tr cs
  pure (outputList res cs2, remembered)

/-! ## Concrete material for the claims -/

/-- Validation of a standalone source string (tokenize, then
`_validate_javascript`), the first two pipeline steps of
`compile_javascript_string`. -/
def validateSource (s : String) : Except JsErr Unit := do
  let cs ← lexString s
  validate_javascript cs

/-- Division operators as the spec describes the `/` disambiguation. -/
def isDivisionOper : JSNode → Bool
  | .oper t => operatorText t = "/"
  | _ => false

/-- The 26 single-letter names `a` … `z`. -/
def azNames : List String :=
  "abcdefghijklmnopqrstuvwxyz".data.map (fun c => String.mk [c])

/-- The testable-properties input `function(total,count){return total+count;}`. -/
def c2src : String := "function(total,count)\x7breturn total+count;\x7d"

/-- A statement block whose first and last scope children are
whitespace tokens: lexed from `{ x; }` nested below the root. -/
def c3tree : List JSNode :=
  [.scope 0 [.ws "\n", .jvar 1 "x", .oper ";", .ws " "]]

/-- A scope whose `var` keyword is preceded (apart from whitespace)
only by the scope's first child, here a `+` operator. -/
def c4tree : List JSNode :=
  [.oper "+", .kw "var", .ws " ", .jvar 0 "y", .oper ";"]

/-- Source of a block holding a gettext call whose literal contains an
escaped double quote: `{gettext("say \"hi\"")}`. -/
def c5src : String := "\x7bgettext(\"say \\\"hi\\\"\")\x7d"

/-- The `a/b/g`: division after an identifier. -/
def c6divSrc : String := "a/b/g"

/-- The `x = /ab+c/g;`: a regex literal with flags. -/
def c6regexSrc : String := "x = /ab+c/g;"

/-- The `a //x␤/b/g`: an identifier, then a single-line comment that is
separated from the identifier by whitespace, then a slash. -/
def c6commentSrc : String := "a //x\n/b/g"

/-- The `{var x;function(x){x;}}`: a function parameter shadowing an outer
declaration of the same name (as lexed; identities in lexing order). -/
def c8tree : List JSNode :=
  [.scope 0 [.kw "var", .ws " ", .jvar 1 "x", .oper ";",
    .kw "function", .parens [.jvar 2 "x"], .scope 3 [.jvar 4 "x", .oper ";"]]]

/-- The `{var a, b;}` as lexed (identities in lexing order). -/
def c10tree : List JSNode :=
  [.scope 0 [.kw "var", .ws " ", .jvar 1 "a", .oper ",", .ws " ",
    .jvar 2 "b", .oper ";"]]

/-- The `var x=1;var y=2;` property input. -/
def c4okSrc : String := "var x=1;var y=2;"

/-- The `var x=1␤var y=2;` property input. -/
def c4badSrc : String := "var x=1\nvar y=2;"

/-! ## Theorems -/

/-- A name returned by the generation loop is never in the avoid list. -/
theorem genLoop_not_mem :
    ∀ (fuel : Nat) (c : List Nat) (avoid : List String) (s : String),
      genLoop fuel c avoid = some s → s ∉ avoid := by
  intro fuel
  induction fuel with
  | zero => intro c avoid s h; simp [genLoop] at h
  | succ n ih =>
      intro c avoid s h
      by_cases hm : outName c ∈ avoid
      · rw [genLoop, if_pos hm] at h
        exact ih _ _ _ h
      · rw [genLoop, if_neg hm] at h
        cases h
        exact hm

/-- C1 (amended): `generate_varname` returns the first name in the
enumeration order `a, b, …, z, aa, ba, ca, …, za, ab, …` (base-26 over
lowercase letters with the least-significant letter written first) that
is neither in the avoid list (free/global names and names already
assigned at enclosing scopes) nor a reserved keyword; in particular the
name generated after `z` is `aa`, and the name generated after `aa` is
`ba`. -/
theorem C1_generate_varname :
    (∀ (avoid : List String) (s : String), generate_varname avoid = some s →
        s ∉ avoid ∧ s ∉ JS_KEYWORDS) ∧
    generate_varname azNames = some "aa" ∧
    generate_varname (azNames ++ ["aa"]) = some "ba" := by
  refine ⟨?_, rfl, rfl⟩
  intro avoid s h
  rw [generate_varname] at h
  have h2 := genLoop_not_mem _ _ _ _ h
  constructor
  · exact fun ha => h2 (List.mem_append_left _ ha)
  · exact fun ha => h2 (List.mem_append_right _ ha)

/-- Witness for C1: the name generated against the avoid list
`a, …, z` is in neither the avoid list nor the keyword list. -/
theorem C1_generate_varname_witness :
    "aa" ∉ azNames ∧ "aa" ∉ JS_KEYWORDS :=
  C1_generate_varname.1 azNames "aa" C1_generate_varname.2.1

/-- C1 (counterexample): with `a, …, z` and `aa` taken — the state
after 27 assignments — `generate_varname` yields `ba`, not the
lexicographically-first unused name `ab` that the claim's sequence
`a, …, z, aa, ab, …` prescribes. -/
theorem C1_counterexample :
    generate_varname (azNames ++ ["aa"]) = some "ba" ∧ ("ba" : String) ≠ "ab" :=
  ⟨rfl, by decide⟩

/-- C2 (counterexample): compiling
`function(total,count){return total+count;}` returns the source
unchanged — the parameters are not renamed to `a` and `b`, because the
`function` keyword sits at document-root level, where declaration
collection is disabled (`not in_root_node` in `find_variables`). -/
theorem C2_counterexample :
    compile_javascript_string id c2src = .ok c2src ∧
    c2src ≠ "function(a,b)\x7breturn a+b;\x7d" :=
  ⟨rfl, by decide⟩

/-- C2 (amended): compiling the standalone source
`function(total,count){return total+count;}` leaves it unchanged: a
top-level `function` keyword never triggers declaration collection, so
neither parameter enters any symbol table and nothing is renamed. -/
theorem C2_toplevel_unchanged :
    compile_javascript_string id c2src = .ok c2src := rfl

/-- C3 (code bug): the boundary-emptying block of
`_compress_javascript_whitespace` runs for every node — its
`root_node` parameter is never read, contradicting the comment above
the block — so a non-root Scope's leading and trailing Whitespace
children end the pass holding the empty string, not one space as the
claim (and the source comment) state. -/
theorem C3_nonroot_boundary_emptied :
    compress_javascript_whitespace c3tree =
      [.scope 0 [.ws "", .jvar 1 "x", .oper ";", .ws ""]] ∧
    (JSNode.ws "" : JSNode) ≠ .ws " " := by
  refine ⟨rfl, ?_⟩
  intro h
  injection h with h2
  exact absurd h2 (by decide)

/-- C5 (code bug): a gettext call whose literal holds a double quote is
rewritten with the quote escaped twice.  `_process_gettext` stores
`translation.replace(u'"', ur'\"')` into the children, and
`JavascriptDoubleQuotedString.output` applies the same replacement
again, so `{gettext("say \"hi\"")}` under the identity translation
renders as `{"say \\"hi\\""}` instead of `{"say \"hi\""}`.  The
original literal text is reported to the catalog collector exactly
once. -/
theorem C5_double_escape :
    compile_javascript_string_remembered id c5src =
      .ok ("\x7b\"say \\\\\"hi\\\\\"\"\x7d", ["say \"hi\""]) ∧
    escQuotes "say \"hi\"" = "say \\\"hi\\\"" ∧
    escQuotes (escQuotes "say \"hi\"") ≠ escQuotes "say \"hi\"" :=
  ⟨rfl, rfl, by decide⟩

/-- C6 (counterexample): in `a //x␤/b/g` the significant token
preceding the final slash is the identifier `a` (only whitespace and a
single-line comment intervene), yet the lexer produces a regex-object
token `/b/g`, not division operators: the whitespace before `//`
pops the `after-varname` state, so the comment and the slash are read
from the `root` state. -/
theorem C6_counterexample :
    lexString c6commentSrc = .ok [.jvar 0 "a", .ws " ", .regex "/b/g"] ∧
    (lexString c6commentSrc).map (List.map isDivisionOper) =
      .ok [false, false, false] :=
  ⟨rfl, rfl⟩

/-- C6 (amended): a `/` reached in the `after-varname` state — entered
after an identifier, number or closing group, surviving whitespace and
*directly adjacent* comments — lexes as a division operator, and a `/`
reached in the root state starts a regex literal that includes its
trailing lowercase flags: `a/b/g` gives two division operators,
`x = /ab+c/g;` one regex-object token. -/
theorem C6_slash_disambiguation :
    lexString c6divSrc =
      .ok [.jvar 0 "a", .oper "/", .jvar 1 "b", .oper "/", .jvar 2 "g"] ∧
    lexString c6regexSrc =
      .ok [.jvar 0 "x", .oper " = ", .regex "/ab+c/g", .oper ";"] :=
  ⟨rfl, rfl⟩

/-- C10: in `{var a, b;}` only the first declarator `a` enters the
scope's symbol table, `b` is recorded as a free/global reference and no
link is created; the `next_is_variable` flag is consumed by the first
Variable after `var` and a comma operator does not re-set it. -/
theorem C10_multi_declarator :
    (minifyAnalyze c10tree).map (fun st => (st.tables, st.link, st.globals)) =
      .ok ([(0, [("a", 1)])], [], ["b"]) ∧
    (∀ (inRoot : Bool) (sid : Nat) (st : MSt) (nv : Bool) (t : String)
        (rest : List JSNode),
        find_variables inRoot sid st nv (.oper t :: rest) =
          find_variables inRoot sid st false rest) ∧
    (∀ (inRoot : Bool) (sid : Nat) (st : MSt) (vid : Nat) (name : String)
        (rest : List JSNode),
        find_variables inRoot sid st true (.jvar vid name :: rest) =
          find_variables inRoot sid (add_var_to_scope st sid vid name) false rest) := by
  refine ⟨rfl, ?_, ?_⟩
  · intro inRoot sid st nv t rest
    rfl
  · intro inRoot sid st vid name rest
    rfl

/-- The backwards whitespace walk never exceeds its start index. -/
theorem lastNonWsAux_le (children : List JSNode) :
    ∀ j, lastNonWsAux children j ≤ j := by
  intro j
  induction j with
  | zero => simp [lastNonWsAux]
  | succ n ih =>
      rw [lastNonWsAux]
      split
      · omega
      · omega

/-- The backwards whitespace walk stops at index 0 or at a
non-whitespace node. -/
theorem lastNonWsAux_stop (children : List JSNode) :
    ∀ j, lastNonWsAux children j = 0 ∨
      isWsNode ((children.get? (lastNonWsAux children j)).getD .django) = false := by
  intro j
  induction j with
  | zero => left; simp [lastNonWsAux]
  | succ n ih =>
      by_cases hc : isWsNode ((children.get? (n + 1)).getD .django) = true
      · rw [lastNonWsAux, if_pos hc]
        exact ih
      · right
        rw [lastNonWsAux, if_neg hc]
        simpa using hc

/-- When every node at indices `1 … j` is whitespace, the backwards
walk reaches index 0. -/
theorem lastNonWsAux_all_ws (children : List JSNode) :
    ∀ j, (∀ k, 1 ≤ k → k ≤ j →
        isWsNode ((children.get? k).getD .django) = true) →
      lastNonWsAux children j = 0 := by
  intro j
  induction j with
  | zero => intro _; simp [lastNonWsAux]
  | succ n ih =>
      intro h
      rw [lastNonWsAux]
      rw [if_pos (h (n + 1) (by omega) (by omega))]
      exact ih (fun k h1 h2 => h k h1 (by omega))

/-- C9: the validator's last-non-whitespace lookup never returns the
scope's first child — every returned token sits at an index between 1
and the cursor — and consequently a `var` keyword whose only preceding
non-whitespace sibling is the first child of its scope passes the
validator's `var` step without an error, whatever that first child
is. -/
theorem C9_lookup_skips_first_child :
    (∀ (children : List JSNode) (i : Nat) (t : JSNode),
        get_last_non_whitespace_token children i = some t →
        ∃ j, 1 ≤ j ∧ j < i ∧ children.get? j = some t ∧ isWsNode t = false) ∧
    (∀ (c0 : JSNode) (pre post : List JSNode) (pending : Bool),
        (∀ x ∈ pre, isWsNode x = true) →
        valStep (c0 :: pre ++ .kw "var" :: post) (pre.length + 1) pending =
          .ok (pre.length + 2, pending)) := by
  constructor
  · intro children i t h
    simp only [get_last_non_whitespace_token] at h
    split_ifs at h with h1 h2
    · refine ⟨lastNonWsAux children (i - 1), by omega, ?_, h, ?_⟩
      · have := lastNonWsAux_le children (i - 1)
        omega
      · rcases lastNonWsAux_stop children (i - 1) with h3 | h3
        · exact absurd h3 h2
        · rw [h] at h3
          simpa using h3
  · intro c0 pre post pending hws
    have hget : (c0 :: pre ++ JSNode.kw "var" :: post).get? (pre.length + 1) =
        some (.kw "var") := by
      show (pre ++ JSNode.kw "var" :: post).get? pre.length = some (.kw "var")
      rw [List.get?_append_right (le_refl _)]
      simp
    have haux : lastNonWsAux (c0 :: pre ++ JSNode.kw "var" :: post) pre.length = 0 := by
      apply lastNonWsAux_all_ws
      intro k h1 h2
      match k, h1 with
      | m + 1, _ =>
        show isWsNode (((pre ++ JSNode.kw "var" :: post).get? m).getD .django) = true
        have hm : m < pre.length := by omega
        rw [List.get?_append hm]
        have hx : pre.get? m = some (pre.get ⟨m, hm⟩) := List.get?_eq_get hm
        rw [hx]
        exact hws _ (List.get?_mem hx)
    have hlast : get_last_non_whitespace_token (c0 :: pre ++ JSNode.kw "var" :: post)
        (pre.length + 1) = none := by
      rw [get_last_non_whitespace_token, if_pos (by omega : pre.length + 1 > 0)]
      simp only [Nat.add_sub_cancel, haux]
      simp
    simp only [valStep, nodeAt, hget, varBranch, hlast]
    rfl

/-- Witness for C9: a `+` operator as first child, then whitespace,
then `var` — the `var` step succeeds. -/
theorem C9_lookup_skips_first_child_witness :
    valStep [.oper "+", .ws " ", .kw "var", .ws " ", .jvar 0 "y", .oper ";"] 2 false =
      .ok (3, false) :=
  C9_lookup_skips_first_child.2 (.oper "+") [.ws " "]
    [.ws " ", .jvar 0 "y", .oper ";"] false
    (by
      intro x hx
      rw [List.mem_singleton] at hx
      subst hx
      rfl)

/-- Bind of a successful `Except` computation. -/
theorem exbind_ok {α β : Type} (a : α) (f : α → Except JsErr β) :
    (Except.ok a >>= f) = f a := rfl

/-- Bind of a failed `Except` computation. -/
theorem exbind_err {α β : Type} (e : JsErr) (f : α → Except JsErr β) :
    ((Except.error e : Except JsErr α) >>= f) = Except.error e := rfl

/-- C4 (amended): the validator's `var` step raises MissingSemicolon
exactly when `get_last_non_whitespace_token` — whose result is always
at an index between 1 and the cursor, never the scope's first child —
yields a token that is not a semicolon or colon operator, a Scope, an
embedded-tag node, or a closed Parentheses group; `var x=1;var y=2;`
passes validation and `var x=1␤var y=2;` raises MissingSemicolon. -/
theorem C4_var_rule :
    (∀ (children : List JSNode) (i : Nat) (pending : Bool),
        children.get? i = some (.kw "var") →
        (valStep children i pending = .error .missingSemicolon ↔
          ∃ t, get_last_non_whitespace_token children i = some t ∧
            allowedBeforeVar t = false)) ∧
    validateSource c4okSrc = .ok () ∧
    validateSource c4badSrc = .error .missingSemicolon := by
  refine ⟨?_, rfl, rfl⟩
  intro children i pending hget
  have hred : valStep children i pending =
      (do varBranch children i; pure (i + 1, pending) : Except JsErr (Nat × Bool)) := by
    simp only [valStep, nodeAt, hget, exbind_ok]
    rw [if_neg (by decide : ¬ (kwGroup.contains "var" = true))]
    rw [if_pos trivial]
  rw [hred]
  cases hlast : get_last_non_whitespace_token children i with
  | none =>
      simp [varBranch, hlast, exbind_ok]
  | some t =>
      by_cases hall : allowedBeforeVar t = true
      · simp [varBranch, hlast, hall, exbind_ok]
      · simp only [varBranch, hlast]
        rw [if_neg hall]
        simp only [Bool.not_eq_true] at hall
        simp [hall, exbind_err]

/-- Witness for C4: the `var` step after a semicolon, instantiating the
equivalence at a concrete scope. -/
theorem C4_var_rule_witness :
    valStep [.oper ";", .kw "var"] 1 false = .error .missingSemicolon ↔
      ∃ t, get_last_non_whitespace_token [.oper ";", .kw "var"] 1 = some t ∧
        allowedBeforeVar t = false :=
  C4_var_rule.1 [.oper ";", .kw "var"] 1 false rfl

/-- C4 (counterexample): in the scope `+var y;` the last
non-whitespace token strictly before the `var` keyword is the `+`
operator at index 0, which is in none of the accepted categories, yet
the validator accepts the scope — `get_last_non_whitespace_token`
never returns the first child, so the check is skipped. -/
theorem C4_counterexample :
    validate_javascript c4tree = .ok () ∧
    c4tree.get? 1 = some (.kw "var") ∧
    c4tree.get? 0 = some (.oper "+") ∧
    allowedBeforeVar (.oper "+") = false :=
  ⟨rfl, rfl, rfl, rfl⟩

/-- The right trim is idempotent. -/
theorem rtrimChars_idem : ∀ l : List Char, rtrimChars (rtrimChars l) = rtrimChars l := by
  intro l
  induction l with
  | nil => rfl
  | cons c cs ih =>
      rw [rtrimChars]
      cases hr : rtrimChars cs with
      | nil =>
          by_cases hc : isPyWs c = true
          · rw [if_pos hc]; rfl
          · rw [if_neg hc]
            rw [rtrimChars, rtrimChars, if_neg hc]
      | cons d ds =>
          rw [rtrimChars]
          rw [hr] at ih
          rw [ih]

/-- The left trim preserves right-trimmed lists. -/
theorem rtrim_of_ltrim : ∀ l : List Char, rtrimChars l = l →
    rtrimChars (ltrimChars l) = ltrimChars l := by
  intro l
  induction l with
  | nil => intro _; rfl
  | cons c cs ih =>
      intro h
      rw [rtrimChars] at h
      cases hr : rtrimChars cs with
      | nil =>
          rw [hr] at h
          by_cases hc : isPyWs c = true
          · rw [if_pos hc] at h
            exact absurd h (by simp)
          · rw [if_neg hc] at h
            have hcs : cs = [] := by
              cases h
              rfl
            subst hcs
            rw [ltrimChars, List.dropWhile]
            rw [Bool.of_not_eq_true hc]
            simp [rtrimChars, hc]
      | cons d ds =>
          rw [hr] at h
          have hcs : rtrimChars cs = cs := by
            cases h
            rw [hr]
          by_cases hc : isPyWs c = true
          · rw [ltrimChars, List.dropWhile, hc]
            exact ih hcs
          · rw [ltrimChars, List.dropWhile, Bool.of_not_eq_true hc]
            rw [rtrimChars, hcs]
            cases h
            rfl

/-- The `strip()` is idempotent. -/
theorem trimChars_idem (l : List Char) : trimChars (trimChars l) = trimChars l := by
  rw [trimChars, trimChars]
  rw [rtrim_of_ltrim (rtrimChars l) (rtrimChars_idem l)]
  rw [ltrimChars, ltrimChars, List.dropWhile_idempotent]

/-- The `pstrip` is idempotent. -/
theorem pstrip_idem (s : String) : pstrip (pstrip s) = pstrip s := by
  rw [pstrip, pstrip]
  exact congrArg String.mk (trimChars_idem s.data)

/-- The compressor's operator rewrite is idempotent. -/
theorem opFix_idem (t : String) : opFix (opFix t) = opFix t := by
  by_cases h1 : operatorText t = "in"
  · have ht : opFix t = " in " := by rw [opFix, if_pos h1]
    rw [ht]
    decide
  · by_cases h2 : operatorText t = "instanceof"
    · have ht : opFix t = " instanceof " := by rw [opFix, if_neg h1, if_pos h2]
      rw [ht]
      decide
    · have ht : opFix t = operatorText t := by rw [opFix, if_neg h1, if_neg h2]
      have hid : operatorText (operatorText t) = operatorText t := pstrip_idem t
      rw [ht, opFix, hid, if_neg h1, if_neg h2]

/-- The `emptyIfWs` is idempotent. -/
theorem emptyIfWs_idem (x : JSNode) : emptyIfWs (emptyIfWs x) = emptyIfWs x := by
  cases x <;> rfl


/-- Shape of `setLast` on a singleton. -/
theorem setLast_single (f : JSNode → JSNode) (a : JSNode) :
    setLast f [a] = [f a] := rfl

/-- Shape of `setLast` on two or more elements. -/
theorem setLast_cons_cons (f : JSNode → JSNode) (a b : JSNode) (t : List JSNode) :
    setLast f (a :: b :: t) = a :: setLast f (b :: t) := rfl

/-- The boundary transform is absorbed around compression on
compressor-fixed nodes: emptying, re-compressing to one space and
emptying again equals emptying once. -/
theorem emptyIfWs_compress_emptyIfWs (x : JSNode) (h : compressNode x = x) :
    emptyIfWs (compressNode (emptyIfWs x)) = emptyIfWs x := by
  cases x with
  | ws t => rfl
  | scope sid cs =>
      show emptyIfWs (compressNode (JSNode.scope sid cs)) = JSNode.scope sid cs
      rw [h]
      rfl
  | parens cs =>
      show emptyIfWs (compressNode (JSNode.parens cs)) = JSNode.parens cs
      rw [h]
      rfl
  | brackets cs =>
      show emptyIfWs (compressNode (JSNode.brackets cs)) = JSNode.brackets cs
      rw [h]
      rfl
  | oper t =>
      show emptyIfWs (compressNode (JSNode.oper t)) = JSNode.oper t
      rw [h]
      rfl
  | kw t => rfl
  | jvar v t => rfl
  | dqstr t => rfl
  | sqstr t => rfl
  | regex t => rfl
  | num t => rfl
  | django => rfl
  | reqws t => rfl

/-- The `setLast` of a nonempty list is a cons. -/
theorem setLast_cons_shape (g : JSNode → JSNode) (b : JSNode) (t : List JSNode) :
    ∃ y l2, setLast g (b :: t) = y :: l2 := by
  cases t with
  | nil => exact ⟨g b, [], rfl⟩
  | cons c t2 => exact ⟨b, setLast g (c :: t2), rfl⟩

/-- Composition of two `setLast` transforms. -/
theorem setLast_setLast (f g : JSNode → JSNode) :
    ∀ l : List JSNode, setLast f (setLast g l) = setLast (fun a => f (g a)) l := by
  intro l
  induction l with
  | nil => rfl
  | cons a r ih =>
      cases r with
      | nil => rfl
      | cons b t =>
          rw [setLast_cons_cons g]
          obtain ⟨y, l2, hyl⟩ := setLast_cons_shape g b t
          rw [hyl, setLast_cons_cons f, ← hyl, ih, ← setLast_cons_cons]

/-- The `setLast` only looks at the last element. -/
theorem setLast_congr (f g : JSNode → JSNode) :
    ∀ l : List JSNode, (∀ x ∈ l, f x = g x) → setLast f l = setLast g l := by
  intro l
  induction l with
  | nil => intro _; rfl
  | cons a r ih =>
      intro h
      cases r with
      | nil =>
          rw [setLast_single, setLast_single, h a (List.mem_cons_self a [])]
      | cons b t =>
          rw [setLast_cons_cons, setLast_cons_cons,
            ih (fun x hx => h x (List.mem_cons_of_mem a hx))]

/-- Mapping a pointwise-fixed function over `setLast` touches only the
last element. -/
theorem map_setLast_fix (f g : JSNode → JSNode) :
    ∀ (b : JSNode) (t : List JSNode), (∀ x ∈ b :: t, f x = x) →
      List.map f (setLast g (b :: t)) = setLast (fun x => f (g x)) (b :: t) := by
  intro b t
  induction t generalizing b with
  | nil => intro _; rfl
  | cons c t2 ih =>
      intro h
      rw [setLast_cons_cons, List.map, h b (List.mem_cons_self b _)]
      rw [ih c (fun x hx => h x (List.mem_cons_of_mem b hx))]
      rw [← setLast_cons_cons]

/-- Re-running the boundary-emptying and content pass over an already
compressed and trimmed children list changes nothing. -/
theorem trimB_map_trimB (m : List JSNode) (h : ∀ x ∈ m, compressNode x = x) :
    trimBoundary (List.map compressNode (trimBoundary m)) = trimBoundary m := by
  cases m with
  | nil => rfl
  | cons a r =>
      cases r with
      | nil =>
          show trimBoundary [compressNode (emptyIfWs (emptyIfWs a))] =
            setLast emptyIfWs (setFirst emptyIfWs [a])
          rw [emptyIfWs_idem]
          show [emptyIfWs (emptyIfWs (compressNode (emptyIfWs a)))] = [emptyIfWs (emptyIfWs a)]
          rw [emptyIfWs_idem, emptyIfWs_idem]
          rw [emptyIfWs_compress_emptyIfWs a (h a (List.mem_cons_self a _))]
      | cons b t =>
          have hbt : ∀ x ∈ b :: t, compressNode x = x :=
            fun x hx => h x (List.mem_cons_of_mem a hx)
          have h1 : trimBoundary (a :: b :: t) =
              emptyIfWs a :: setLast emptyIfWs (b :: t) := rfl
          rw [h1]
          have h2 : List.map compressNode (emptyIfWs a :: setLast emptyIfWs (b :: t)) =
              compressNode (emptyIfWs a) ::
                setLast (fun x => compressNode (emptyIfWs x)) (b :: t) := by
            rw [List.map, map_setLast_fix compressNode emptyIfWs b t hbt]
          rw [h2]
          obtain ⟨y, l2, hyl⟩ := setLast_cons_shape (fun x => compressNode (emptyIfWs x)) b t
          rw [hyl]
          show emptyIfWs (compressNode (emptyIfWs a)) :: setLast emptyIfWs (y :: l2) =
            emptyIfWs a :: setLast emptyIfWs (b :: t)
          rw [← hyl]
          rw [setLast_setLast]
          rw [emptyIfWs_compress_emptyIfWs a (h a (List.mem_cons_self a _))]
          rw [setLast_congr (fun x => emptyIfWs (compressNode (emptyIfWs x))) emptyIfWs (b :: t)
            (fun x hx => emptyIfWs_compress_emptyIfWs x (hbt x hx))]

/-- Every node counts at least itself. -/
theorem countNode_pos (x : JSNode) : 1 ≤ countNode x := by
  cases x <;> simp [countNode]

/-- A member of a children list counts no more than the list. -/
theorem countNode_le_countList (x : JSNode) :
    ∀ l : List JSNode, x ∈ l → countNode x ≤ countList l := by
  intro l
  induction l with
  | nil => intro h; cases h
  | cons a r ih =>
      intro h
      rw [countList]
      rcases List.mem_cons.mp h with h1 | h1
      · subst h1; omega
      · have := ih h1
        omega

/-- The `compressList` is the pointwise map of `compressNode`. -/
theorem compressList_eq_map :
    ∀ l : List JSNode, compressList l = List.map compressNode l := by
  intro l
  induction l with
  | nil => rfl
  | cons a r ih => rw [compressList, ih, List.map]

/-- Compressing a node is idempotent (strong induction on the node
count). -/
theorem compressNode_idem_aux :
    ∀ (n : Nat) (x : JSNode), countNode x ≤ n →
      compressNode (compressNode x) = compressNode x := by
  intro n
  induction n with
  | zero =>
      intro x h
      have := countNode_pos x
      omega
  | succ n ih =>
      intro x h
      cases x with
      | scope sid cs =>
          have hcs : ∀ y ∈ cs, compressNode (compressNode y) = compressNode y := by
            intro y hy
            apply ih
            have h1 := countNode_le_countList y cs hy
            rw [countNode] at h
            omega
          show JSNode.scope sid
              (trimBoundary (compressList (trimBoundary (compressList cs)))) =
            JSNode.scope sid (trimBoundary (compressList cs))
          rw [compressList_eq_map, compressList_eq_map]
          rw [trimB_map_trimB (List.map compressNode cs) ?hfix]
          case hfix =>
            intro y hy
            obtain ⟨z, hz, rfl⟩ := List.mem_map.mp hy
            exact hcs z hz
      | parens cs =>
          have hcs : ∀ y ∈ cs, compressNode (compressNode y) = compressNode y := by
            intro y hy
            apply ih
            have h1 := countNode_le_countList y cs hy
            rw [countNode] at h
            omega
          show JSNode.parens
              (trimBoundary (compressList (trimBoundary (compressList cs)))) =
            JSNode.parens (trimBoundary (compressList cs))
          rw [compressList_eq_map, compressList_eq_map]
          rw [trimB_map_trimB (List.map compressNode cs) ?hfix2]
          case hfix2 =>
            intro y hy
            obtain ⟨z, hz, rfl⟩ := List.mem_map.mp hy
            exact hcs z hz
      | brackets cs =>
          have hcs : ∀ y ∈ cs, compressNode (compressNode y) = compressNode y := by
            intro y hy
            apply ih
            have h1 := countNode_le_countList y cs hy
            rw [countNode] at h
            omega
          show JSNode.brackets
              (trimBoundary (compressList (trimBoundary (compressList cs)))) =
            JSNode.brackets (trimBoundary (compressList cs))
          rw [compressList_eq_map, compressList_eq_map]
          rw [trimB_map_trimB (List.map compressNode cs) ?hfix3]
          case hfix3 =>
            intro y hy
            obtain ⟨z, hz, rfl⟩ := List.mem_map.mp hy
            exact hcs z hz
      | ws t => rfl
      | oper t =>
          show JSNode.oper (opFix (opFix t)) = JSNode.oper (opFix t)
          rw [opFix_idem]
      | kw t => rfl
      | jvar v t => rfl
      | dqstr t => rfl
      | sqstr t => rfl
      | regex t => rfl
      | num t => rfl
      | django => rfl
      | reqws t => rfl

/-- Compressing a node twice equals compressing it once. -/
theorem compressNode_idem (x : JSNode) :
    compressNode (compressNode x) = compressNode x :=
  compressNode_idem_aux (countNode x) x (le_refl _)

/-- C7: whitespace compression is idempotent — for every already-lexed
tree, compressing twice yields a tree that serializes identically (in
fact equally) to compressing once. -/
theorem C7_compress_idempotent :
    ∀ (res : Nat → Option String) (cs : List JSNode),
      outputList res
          (compress_javascript_whitespace (compress_javascript_whitespace cs)) =
        outputList res (compress_javascript_whitespace cs) := by
  intro res cs
  have heq : compress_javascript_whitespace (compress_javascript_whitespace cs) =
      compress_javascript_whitespace cs := by
    show trimBoundary (compressList (trimBoundary (compressList cs))) =
      trimBoundary (compressList cs)
    rw [compressList_eq_map, compressList_eq_map]
    apply trimB_map_trimB
    intro y hy
    obtain ⟨z, hz, rfl⟩ := List.mem_map.mp hy
    exact compressNode_idem z
  rw [heq]

/-- A successful numeric association lookup finds a stored pair. -/
theorem alookupN_mem {α : Type} :
    ∀ (l : List (Nat × α)) (k : Nat) (v : α), alookupN l k = some v → (k, v) ∈ l := by
  intro l
  induction l with
  | nil => intro k v h; simp [alookupN] at h
  | cons a r ih =>
      intro k v h
      rw [alookupN] at h
      split_ifs at h with h1
      · cases h
        subst h1
        exact List.mem_cons_self _ _
      · exact List.mem_cons_of_mem _ (ih k v h)

/-- A successful string association lookup finds a stored pair. -/
theorem alookupS_mem {α : Type} :
    ∀ (l : List (String × α)) (k : String) (v : α), alookupS l k = some v → (k, v) ∈ l := by
  intro l
  induction l with
  | nil => intro k v h; simp [alookupS] at h
  | cons a r ih =>
      intro k v h
      rw [alookupS] at h
      split_ifs at h with h1
      · cases h
        subst h1
        exact List.mem_cons_self _ _
      · exact List.mem_cons_of_mem _ (ih k v h)

/-- The `tblInsert` does not remove table entries. -/
theorem entryVals_tblInsert_mono (st : MSt) (sid : Nat) (name : String) (vid v : Nat)
    (h : v ∈ entryVals st) : v ∈ entryVals (tblInsert st sid name vid) := by
  rw [entryVals] at h
  rw [entryVals, tblInsert]
  show v ∈ ((tblInsertGo sid name vid st.tables).map (fun q => q.2.map Prod.snd)).join
  revert h
  generalize st.tables = tables
  induction tables with
  | nil => intro h; simp at h
  | cons a r ih =>
      intro h
      rw [tblInsertGo]
      rcases List.mem_join.mp h with ⟨es, hes, hv⟩
      rcases List.mem_map.mp hes with ⟨q, hq, rfl⟩
      rcases List.mem_cons.mp hq with h1 | h1
      · subst h1
        split_ifs with h2
        · apply List.mem_join_of_mem (l := (q.2 ++ [(name, vid)]).map Prod.snd)
          · exact List.mem_map_of_mem _ (List.mem_cons_self _ _)
          · rw [List.map_append]
            exact List.mem_append_left _ hv
        · apply List.mem_join_of_mem (l := q.2.map Prod.snd)
          · exact List.mem_map_of_mem _ (List.mem_cons_self _ _)
          · exact hv
      · have hrec : v ∈ ((r.map (fun q => q.2.map Prod.snd)).join) :=
          List.mem_join_of_mem (List.mem_map_of_mem _ h1) hv
        have := ih hrec
        split_ifs with h2
        · rcases List.mem_join.mp hrec with ⟨es2, hes2, hv2⟩
          exact List.mem_join_of_mem (by
            rw [List.map_cons]
            exact List.mem_cons_of_mem _ hes2) hv2
        · rcases List.mem_join.mp this with ⟨es2, hes2, hv2⟩
          exact List.mem_join_of_mem (by
            rw [List.map_cons]
            exact List.mem_cons_of_mem _ hes2) hv2

/-- The inserted declaration is among the table entries afterwards. -/
theorem entryVals_tblInsert_self (st : MSt) (sid : Nat) (name : String) (vid : Nat) :
    vid ∈ entryVals (tblInsert st sid name vid) := by
  rw [entryVals, tblInsert]
  show vid ∈ ((tblInsertGo sid name vid st.tables).map (fun q => q.2.map Prod.snd)).join
  generalize st.tables = tables
  induction tables with
  | nil =>
      simp [tblInsertGo]
  | cons a r ih =>
      rw [tblInsertGo]
      split_ifs with h2
      · apply List.mem_join_of_mem (l := (a.2 ++ [(name, vid)]).map Prod.snd)
        · exact List.mem_map_of_mem _ (List.mem_cons_self _ _)
        · rw [List.map_append]
          exact List.mem_append_right _ (by simp)
      · rcases List.mem_join.mp ih with ⟨es2, hes2, hv2⟩
        exact List.mem_join_of_mem (by
          rw [List.map_cons]
          exact List.mem_cons_of_mem _ hes2) hv2

/-- A declaration found by `tblFind` is among the table entries. -/
theorem tblFind_mem_entryVals (st : MSt) (sid : Nat) (name : String) (tid : Nat)
    (h : tblFind st sid name = some tid) : tid ∈ entryVals st := by
  rw [tblFind] at h
  have hpair := alookupS_mem _ _ _ h
  rw [tblOf] at hpair
  cases hlook : alookupN st.tables sid with
  | none =>
      rw [hlook] at hpair
      simp at hpair
  | some es =>
      rw [hlook] at hpair
      have hq := alookupN_mem _ _ _ hlook
      rw [entryVals]
      exact List.mem_join_of_mem (List.mem_map_of_mem _ hq)
        (List.mem_map.mpr ⟨(name, tid), hpair, rfl⟩)

/-- A declaration found on the scope stack is among the table
entries. -/
theorem lookupScopes_mem_entryVals (st : MSt) :
    ∀ (sids : List Nat) (name : String) (tid : Nat),
      lookupScopes st sids name = some tid → tid ∈ entryVals st := by
  intro sids
  induction sids with
  | nil => intro name tid h; simp [lookupScopes] at h
  | cons s r ih =>
      intro name tid h
      rw [lookupScopes] at h
      cases hf : tblFind st s name with
      | some v =>
          rw [hf] at h
          cases h
          exact tblFind_mem_entryVals st s name tid hf
      | none =>
          rw [hf] at h
          exact ih name tid h

/-- The `link_to_variable` preserves link well-formedness when the target
is a stored declaration. -/
theorem LinkOk_link_to_variable (st : MSt) (a b : Nat)
    (hb : b ∈ entryVals st) (h : LinkOk st) : LinkOk (link_to_variable st a b) := by
  rw [link_to_variable]
  split_ifs with h1
  · exact h
  · intro p hp
    have hev : entryVals { st with link := st.link ++ [(a, b)] } = entryVals st := rfl
    rw [hev]
    rcases List.mem_append.mp hp with h2 | h2
    · exact h p h2
    · rw [List.mem_singleton] at h2
      subst h2
      exact ⟨fun he => h1 he.symm, hb⟩

/-- The `tblInsert` preserves link well-formedness. -/
theorem LinkOk_tblInsert (st : MSt) (sid : Nat) (name : String) (vid : Nat)
    (h : LinkOk st) : LinkOk (tblInsert st sid name vid) := by
  intro p hp
  have hlink : (tblInsert st sid name vid).link = st.link := rfl
  rw [hlink] at hp
  rcases h p hp with ⟨h1, h2⟩
  exact ⟨h1, entryVals_tblInsert_mono st sid name vid p.2 h2⟩

/-- Appending a global name preserves link well-formedness. -/
theorem LinkOk_globals (st : MSt) (g : List String) (h : LinkOk st) :
    LinkOk { st with globals := g } := by
  intro p hp
  exact h p hp

/-- The `add_var_to_scope` preserves link well-formedness. -/
theorem LinkOk_add_var_to_scope (st : MSt) (sid vid : Nat) (name : String)
    (h : LinkOk st) : LinkOk (add_var_to_scope st sid vid name) := by
  rw [add_var_to_scope]
  cases hf : tblFind st sid name with
  | some tid =>
      exact LinkOk_link_to_variable st vid tid
        (tblFind_mem_entryVals st sid name tid hf) h
  | none => exact LinkOk_tblInsert st sid name vid h

/-- Binding a parameter list into a scope preserves link
well-formedness. -/
theorem LinkOk_foldl_add (sid : Nat) :
    ∀ (params : List (String × Nat)) (st : MSt), LinkOk st →
      LinkOk (params.foldl (fun st p => add_var_to_scope st sid p.2 p.1) st) := by
  intro params
  induction params with
  | nil => intro st h; exact h
  | cons p r ih =>
      intro st h
      rw [List.foldl_cons]
      exact ih _ (LinkOk_add_var_to_scope st sid p.2 p.1 h)

/-- The Scope-expectation step preserves link well-formedness. -/
theorem LinkOk_plExpectScope (st st2 : MSt) (params : List (String × Nat)) (n : JSNode)
    (hinv : LinkOk st) (h : plExpectScope st params n = .ok st2) : LinkOk st2 := by
  cases n with
  | scope sid cs =>
      cases h
      exact LinkOk_foldl_add sid params st hinv
  | parens cs => cases h
  | brackets cs => cases h
  | ws t => cases h
  | oper t => cases h
  | kw t => cases h
  | jvar v t => cases h
  | dqstr t => cases h
  | sqstr t => cases h
  | regex t => cases h
  | num t => cases h
  | django => cases h
  | reqws t => cases h

/-- The Parentheses-expectation step preserves link well-formedness. -/
theorem LinkOk_plExpectParens (st st2 : MSt) (r2 : List JSNode) (n : JSNode)
    (hinv : LinkOk st) (h : plExpectParens st r2 n = .ok st2) : LinkOk st2 := by
  cases n with
  | parens pcs =>
      rw [plExpectParens] at h
      cases h1 : plCollect pcs false with
      | error e => rw [h1] at h; cases h
      | ok params =>
          rw [h1] at h
          simp only [exbind_ok] at h
          cases h2 : plSkipWs r2 with
          | error e => rw [h2] at h; cases h
          | ok pr =>
              rw [h2] at h
              obtain ⟨n3, r3⟩ := pr
              simp only [exbind_ok] at h
              exact LinkOk_plExpectScope st st2 params n3 hinv h
  | scope sid cs => cases h
  | brackets cs => cases h
  | ws t => cases h
  | oper t => cases h
  | kw t => cases h
  | jvar v t => cases h
  | dqstr t => cases h
  | sqstr t => cases h
  | regex t => cases h
  | num t => cases h
  | django => cases h
  | reqws t => cases h

/-- The `find_variables_in_function_parameter_list` preserves link
well-formedness. -/
theorem LinkOk_pl (st st2 : MSt) (l : List JSNode) (hinv : LinkOk st)
    (h : find_variables_in_function_parameter_list st l = .ok st2) : LinkOk st2 := by
  rw [find_variables_in_function_parameter_list] at h
  cases h1 : plSkipWs l with
  | error e => rw [h1] at h; cases h
  | ok pr =>
      rw [h1] at h
      obtain ⟨n1, r1⟩ := pr
      simp only [exbind_ok] at h
      cases n1 with
      | jvar v nm =>
          cases h2 : plSkipWs r1 with
          | error e => rw [h2] at h; cases h
          | ok pr2 =>
              rw [h2] at h
              obtain ⟨n2, r2⟩ := pr2
              simp only [exbind_ok] at h
              exact LinkOk_plExpectParens st st2 r2 n2 hinv h
      | scope sid cs =>
          simp only [pure_bind] at h
          exact LinkOk_plExpectParens st st2 r1 _ hinv h
      | parens cs =>
          simp only [pure_bind] at h
          exact LinkOk_plExpectParens st st2 r1 _ hinv h
      | brackets cs =>
          simp only [pure_bind] at h
          exact LinkOk_plExpectParens st st2 r1 _ hinv h
      | ws t =>
          simp only [pure_bind] at h
          exact LinkOk_plExpectParens st st2 r1 _ hinv h
      | oper t =>
          simp only [pure_bind] at h
          exact LinkOk_plExpectParens st st2 r1 _ hinv h
      | kw t =>
          simp only [pure_bind] at h
          exact LinkOk_plExpectParens st st2 r1 _ hinv h
      | dqstr t =>
          simp only [pure_bind] at h
          exact LinkOk_plExpectParens st st2 r1 _ hinv h
      | sqstr t =>
          simp only [pure_bind] at h
          exact LinkOk_plExpectParens st st2 r1 _ hinv h
      | regex t =>
          simp only [pure_bind] at h
          exact LinkOk_plExpectParens st st2 r1 _ hinv h
      | num t =>
          simp only [pure_bind] at h
          exact LinkOk_plExpectParens st st2 r1 _ hinv h
      | django =>
          simp only [pure_bind] at h
          exact LinkOk_plExpectParens st st2 r1 _ hinv h
      | reqws t =>
          simp only [pure_bind] at h
          exact LinkOk_plExpectParens st st2 r1 _ hinv h

/-- Defining equation of `find_variables` at a keyword head. -/
theorem fv_kw_eq (inRoot : Bool) (sid : Nat) (st : MSt) (nv : Bool) (k : String)
    (r : List JSNode) :
    find_variables inRoot sid st nv (.kw k :: r) =
      if (k = "function" || k = "var") && !inRoot then
        (do
          let st2 ←
            if k = "function" then find_variables_in_function_parameter_list st r
            else pure st
          find_variables inRoot sid st2 true r)
      else find_variables inRoot sid st false r := rfl

/-- Defining equation of `find_variables` at a variable head. -/
theorem fv_jvar_eq (inRoot : Bool) (sid : Nat) (st : MSt) (nv : Bool) (vid : Nat)
    (name : String) (r : List JSNode) :
    find_variables inRoot sid st nv (.jvar vid name :: r) =
      if nv then find_variables inRoot sid (add_var_to_scope st sid vid name) false r
      else find_variables inRoot sid st false r := rfl

/-- The `find_variables` preserves link well-formedness. -/
theorem LinkOk_find_variables :
    ∀ (inRoot : Bool) (sid : Nat) (st : MSt) (nv : Bool) (l : List JSNode),
      ∀ st2, LinkOk st → find_variables inRoot sid st nv l = .ok st2 → LinkOk st2 := by
  intro inRoot sid st nv l
  refine find_variables.induct
    (fun inRoot sid st c => ∀ st2, LinkOk st →
      find_variables_into inRoot sid st c = .ok st2 → LinkOk st2)
    (fun inRoot sid st nv l => ∀ st2, LinkOk st →
      find_variables inRoot sid st nv l = .ok st2 → LinkOk st2)
    ?_ ?_ ?_ ?_ ?_ ?_ ?_ ?_ ?_ ?_ ?_ ?_ inRoot sid st nv l
  · intro inRoot sid st sid1 cs ih st2 hinv h
    exact ih st2 hinv h
  · intro inRoot sid st cs ih st2 hinv h
    exact ih st2 hinv h
  · intro inRoot sid st cs ih st2 hinv h
    exact ih st2 hinv h
  · intro t inRoot sid st hns hnp hnb st2 hinv h
    cases t with
    | scope s2 cs => exact absurd rfl (hns s2 cs)
    | parens cs => exact absurd rfl (hnp cs)
    | brackets cs => exact absurd rfl (hnb cs)
    | ws t2 => cases h; exact hinv
    | oper t2 => cases h; exact hinv
    | kw t2 => cases h; exact hinv
    | jvar v t2 => cases h; exact hinv
    | dqstr t2 => cases h; exact hinv
    | sqstr t2 => cases h; exact hinv
    | regex t2 => cases h; exact hinv
    | num t2 => cases h; exact hinv
    | django => cases h; exact hinv
    | reqws t2 => cases h; exact hinv
  · intro inRoot sid st nv st2 hinv h
    cases h
    exact hinv
  · intro inRoot sid st nv r hc ih st2 hinv h
    rw [fv_kw_eq, if_pos hc, if_pos rfl] at h
    cases hpl : find_variables_in_function_parameter_list st r with
    | error e => rw [hpl, exbind_err] at h; cases h
    | ok st3 =>
        rw [hpl, exbind_ok] at h
        exact ih st3 st2 (LinkOk_pl st st3 r hinv hpl) h
  · intro inRoot sid st nv r k hc hk ih st2 hinv h
    rw [fv_kw_eq, if_pos hc, if_neg hk, pure_bind] at h
    exact ih st st2 hinv h
  · intro inRoot sid st nv r k hc ih st2 hinv h
    rw [fv_kw_eq, if_neg hc] at h
    exact ih st2 hinv h
  · intro inRoot sid st r vid name ih st2 hinv h
    rw [fv_jvar_eq, if_pos rfl] at h
    exact ih st2 (LinkOk_add_var_to_scope st sid vid name hinv) h
  · intro inRoot sid st nv r vid name hnv ih st2 hinv h
    rw [fv_jvar_eq, if_neg hnv] at h
    exact ih st2 hinv h
  · intro inRoot sid st nv r t ih st2 hinv h
    exact ih st2 hinv h
  · intro inRoot sid st nv r other hnk hnj hnw ihInto ihRest st2 hinv h
    have hstep : find_variables inRoot sid st nv (other :: r) =
        (do
          let st3 ← find_variables_into inRoot sid st other
          find_variables inRoot sid st3 false r) := by
      cases other with
      | kw k => exact absurd rfl (hnk k)
      | jvar v n2 => exact absurd rfl (hnj v n2)
      | ws t2 => exact absurd rfl (hnw t2)
      | scope s2 cs => rfl
      | parens cs => rfl
      | brackets cs => rfl
      | oper t2 => rfl
      | dqstr t2 => rfl
      | sqstr t2 => rfl
      | regex t2 => rfl
      | num t2 => rfl
      | django => rfl
      | reqws t2 => rfl
    rw [hstep] at h
    cases hin : find_variables_into inRoot sid st other with
    | error e => rw [hin, exbind_err] at h; cases h
    | ok st3 =>
        rw [hin, exbind_ok] at h
        exact ihRest st3 st2 (ihInto st3 hinv hin) h

/-- The `find_free_variables` preserves link well-formedness. -/
theorem LinkOk_find_free_variables :
    ∀ (sids : List Nat) (st : MSt) (skipNext : Bool) (prev : Option JSNode)
      (l : List JSNode), LinkOk st →
      LinkOk (find_free_variables sids st skipNext prev l) := by
  intro sids st skipNext prev l
  refine find_free_variables.induct
    (fun sids st skipNext prev l =>
      LinkOk st → LinkOk (find_free_variables sids st skipNext prev l))
    (fun sids st c => LinkOk st → LinkOk (find_free_into sids st c))
    ?_ ?_ ?_ ?_ ?_ ?_ ?_ ?_ sids st skipNext prev l
  · intro sids st sid1 cs ih hinv
    exact ih hinv
  · intro sids st cs ih hinv
    exact ih hinv
  · intro sids st cs ih hinv
    exact ih hinv
  · intro t sids st hns hnp hnb hinv
    cases t with
    | scope s2 cs => exact absurd rfl (hns s2 cs)
    | parens cs => exact absurd rfl (hnp cs)
    | brackets cs => exact absurd rfl (hnb cs)
    | ws t2 => exact hinv
    | oper t2 => exact hinv
    | kw t2 => exact hinv
    | jvar v t2 => exact hinv
    | dqstr t2 => exact hinv
    | sqstr t2 => exact hinv
    | regex t2 => exact hinv
    | num t2 => exact hinv
    | django => exact hinv
    | reqws t2 => exact hinv
  · intro sids st skipNext prev hinv
    exact hinv
  · intro sids st skipNext prev r t ih hinv
    exact ih hinv
  · intro sids st skipNext prev r vid name skip1 skip2 st2 ih hinv
    apply ih
    show LinkOk st2
    rw [show st2 = if skip2 = true then st else
        match lookupScopes st sids name with
        | some tid => link_to_variable st vid tid
        | none => { st with globals := st.globals ++ [name] } from rfl]
    split_ifs with h1
    · exact hinv
    · cases hl : lookupScopes st sids name with
      | some tid =>
          exact LinkOk_link_to_variable st vid tid
            (lookupScopes_mem_entryVals st sids name tid hl) hinv
      | none => exact LinkOk_globals st _ hinv
  · intro sids st skipNext prev r other hno hnj st2 ihInto ihRest hinv
    have hstep : find_free_variables sids st skipNext prev (other :: r) =
        find_free_variables sids (find_free_into sids st other) skipNext (some other) r := by
      cases other with
      | oper t2 => exact absurd rfl (hno t2)
      | jvar v n2 => exact absurd rfl (hnj v n2)
      | scope s2 cs => rfl
      | parens cs => rfl
      | brackets cs => rfl
      | ws t2 => rfl
      | kw t2 => rfl
      | dqstr t2 => rfl
      | sqstr t2 => rfl
      | regex t2 => rfl
      | num t2 => rfl
      | django => rfl
      | reqws t2 => rfl
    rw [hstep]
    exact ihRest (ihInto hinv)

/-- C8 (amended): after the two analysis passes of the resolver, every
link points from a Variable to a *different* Variable that is stored as
a declaration entry in some scope's symbol table — no Variable ever
links to itself (the guard in `link_to_variable`). -/
theorem C8_links_wellformed :
    ∀ (cs : List JSNode) (st : MSt), minifyAnalyze cs = .ok st → LinkOk st := by
  intro cs st h
  rw [minifyAnalyze] at h
  cases h1 : find_variables true 0 MSt.empty false cs with
  | error e => rw [h1, exbind_err] at h; cases h
  | ok st1 =>
      rw [h1, exbind_ok] at h
      cases h
      exact LinkOk_find_free_variables [] st1 false none cs
        (LinkOk_find_variables true 0 MSt.empty false cs st1
          (fun p hp => absurd hp (List.not_mem_nil p)) h1)

/-- Witness for C8: the resolver state of `{var x;function(x){x;}}`
satisfies the link invariant. -/
theorem C8_links_wellformed_witness :
    LinkOk ⟨[(0, [("x", 1)]), (3, [("x", 2)])], [(2, 1), (4, 2)], []⟩ :=
  C8_links_wellformed c8tree ⟨[(0, [("x", 1)]), (3, [("x", 2)])], [(2, 1), (4, 2)], []⟩ rfl

/-- C8 (counterexample): in `{var x;function(x){x;}}` the resolver
links the inner reference (identity 4) to the parameter (identity 2),
and the parameter itself to the outer declaration (identity 1): the
link target of 4 is itself linked, so link resolution is not at most
one hop. -/
theorem C8_two_hop_chain :
    (minifyAnalyze c8tree).map MSt.link = .ok [(2, 1), (4, 2)] ∧
    alookupN [(2, 1), (4, 2)] 4 = some 2 ∧
    alookupN [(2, 1), (4, 2)] 2 = some 1 :=
  ⟨rfl, rfl, rfl⟩
